import Mathlib

/-!
# Verification of the student group-allocation core (`class_allocation.py`)

Shallow embedding of the group-allocation notebook's core functions:
`standardize_name`, `fuzzy_match_friends`, `build_friendship_graph`,
`allocate_groups`, `balance_groups` and `validate_groups`, together with
proofs of the specification's testable properties.

Modelling conventions:
* Python strings are `String` (lists of `Char`); CPython's `str.lower` is
  modelled on its ASCII fragment (`pyLowerChar`), and the regex class `\s`
  together with `str.strip()` by the ASCII whitespace set `isPySpace`.
* Python dicts are insertion-ordered association lists with overwrite-on-
  rewrite semantics (`dictInsert`), matching `dict.__setitem__`.
* Python floats are modelled as exact rationals (`ℚ`); `round(x, 2)` is
  round-half-to-even at two decimal places (`pyRound2`), the rounding mode
  of CPython's `round`.
* `rapidfuzz`'s `fuzz.ratio` is the normalized Indel similarity
  `100 * 2*lcs(a,b) / (|a|+|b|)`; `process.extractOne` keeps the first
  best-scoring choice (strict improvement) and applies the score cutoff.
-/

namespace ClassAllocation

/-! ## Python string primitives -/

/-- ASCII whitespace, as matched by CPython's `\s` regex class and stripped
by `str.strip()` (restricted to the ASCII fragment). -/
def isPySpace (c : Char) : Bool :=
  c == ' ' || c == '\t' || c == '\n' || c == '\r' || c == '\x0b' || c == '\x0c'

/-- `str.strip()`: drop leading and trailing whitespace. -/
def pyStrip (l : List Char) : List Char :=
  ((l.dropWhile isPySpace).reverse.dropWhile isPySpace).reverse

/-- CPython `str.lower()` on its ASCII fragment: map `A`-`Z` to `a`-`z`. -/
def pyLowerChar (c : Char) : Char :=
  if 65 ≤ c.toNat ∧ c.toNat ≤ 90 then Char.ofNat (c.toNat + 32) else c

/-- `re.sub(r"\s+", " ", s)`: replace every maximal run of whitespace
characters by a single space. -/
def collapseWS : List Char → List Char
  | [] => []
  | [c] => if isPySpace c then [' '] else [c]
  | c :: d :: cs =>
    if isPySpace c then
      (if isPySpace d then collapseWS (d :: cs) else ' ' :: collapseWS (d :: cs))
    else c :: collapseWS (d :: cs)

/-- `standardize_name` from `class_allocation.py`: `None` or blank input
gives the empty string; otherwise lowercase, collapse whitespace runs to a
single space, and strip.  Total by construction (the Python function never
raises on `Optional[str]` input). -/
def standardize_name (name : Option String) : String :=
  match name with
  | none => ""
  | some s =>
    if pyStrip s.data = [] then ""
    else String.mk (pyStrip (collapseWS (s.data.map pyLowerChar)))

/-! ### Character-level lemmas -/

theorem pyLowerChar_toLower_fixed (c : Char) :
    pyLowerChar (pyLowerChar c) = pyLowerChar c := by
  unfold pyLowerChar
  by_cases h : 65 ≤ c.toNat ∧ c.toNat ≤ 90
  · simp only [if_pos h]
    obtain ⟨h1, h2⟩ := h
    generalize c.toNat = n at h1 h2
    interval_cases n <;> decide
  · simp only [if_neg h]

theorem isPySpace_pyLowerChar (c : Char) :
    isPySpace (pyLowerChar c) = isPySpace c := by
  unfold pyLowerChar
  by_cases h : 65 ≤ c.toNat ∧ c.toNat ≤ 90
  · simp only [if_pos h]
    obtain ⟨h1, h2⟩ := h
    have hs : isPySpace c = false := by
      unfold isPySpace
      have hv : c.val.toNat = c.toNat := rfl
      simp only [Bool.or_eq_false_iff]
      refine ⟨⟨⟨⟨⟨?_, ?_⟩, ?_⟩, ?_⟩, ?_⟩, ?_⟩ <;>
        · simp only [beq_eq_false_iff_ne, ne_eq]
          intro hc
          subst hc
          simp at h1 h2
    rw [hs]
    generalize c.toNat = n at h1 h2
    interval_cases n <;> decide
  · simp only [if_neg h]

/-! ### Whitespace-collapsing lemmas -/

/-- Adjacent characters are not both whitespace. -/
def RWS (a b : Char) : Prop := isPySpace a = false ∨ isPySpace b = false

theorem collapseWS_mem {l : List Char} {c : Char} (h : c ∈ collapseWS l) :
    c = ' ' ∨ (c ∈ l ∧ isPySpace c = false) := by
  induction l with
  | nil => simp [collapseWS] at h
  | cons a cs ih =>
    cases cs with
    | nil =>
      by_cases ha : isPySpace a
      · simp [collapseWS, ha] at h
        exact Or.inl h
      · simp [collapseWS, ha] at h
        exact Or.inr ⟨by simp [h], by simp [h]; simpa using ha⟩
    | cons d cs =>
      by_cases ha : isPySpace a
      · by_cases hd : isPySpace d
        · simp only [collapseWS, if_pos ha, if_pos hd] at h
          rcases ih h with h1 | ⟨h2, h3⟩
          · exact Or.inl h1
          · exact Or.inr ⟨List.mem_cons_of_mem _ h2, h3⟩
        · simp only [collapseWS, if_pos ha, if_neg hd, List.mem_cons] at h
          rcases h with h1 | h1
          · exact Or.inl h1
          · rcases ih h1 with h2 | ⟨h2, h3⟩
            · exact Or.inl h2
            · exact Or.inr ⟨List.mem_cons_of_mem _ h2, h3⟩
      · simp only [collapseWS, if_neg ha, List.mem_cons] at h
        rcases h with h1 | h1
        · subst h1
          exact Or.inr ⟨List.mem_cons_self _ _, by simpa using ha⟩
        · rcases ih h1 with h2 | ⟨h2, h3⟩
          · exact Or.inl h2
          · exact Or.inr ⟨List.mem_cons_of_mem _ h2, h3⟩

theorem collapseWS_head_of_not_space {d : Char} {t : List Char}
    (hd : isPySpace d = false) : (collapseWS (d :: t)).head? = some d := by
  cases t with
  | nil => simp [collapseWS, hd]
  | cons e t => simp [collapseWS, hd]

theorem collapseWS_chain (l : List Char) : List.Chain' RWS (collapseWS l) := by
  induction l with
  | nil => simp [collapseWS]
  | cons a cs ih =>
    cases cs with
    | nil =>
      by_cases ha : isPySpace a <;> simp [collapseWS, ha]
    | cons d cs =>
      by_cases ha : isPySpace a
      · by_cases hd : isPySpace d
        · simpa only [collapseWS, if_pos ha, if_pos hd] using ih
        · simp only [collapseWS, if_pos ha, if_neg hd]
          rw [List.chain'_cons']
          refine ⟨?_, ih⟩
          intro b hb
          rw [collapseWS_head_of_not_space (by simpa using hd)] at hb
          simp only [Option.mem_def, Option.some.injEq] at hb
          subst hb
          exact Or.inr (by simpa using hd)
      · simp only [collapseWS, if_neg ha]
        rw [List.chain'_cons']
        exact ⟨fun b _ => Or.inl (by simpa using ha), ih⟩

theorem collapseWS_eq_self {l : List Char}
    (h1 : ∀ c ∈ l, isPySpace c = true → c = ' ')
    (h2 : List.Chain' RWS l) : collapseWS l = l := by
  induction l with
  | nil => rfl
  | cons a cs ih =>
    cases cs with
    | nil =>
      by_cases ha : isPySpace a
      · have : a = ' ' := h1 a (List.mem_singleton_self a) ha
        simp [collapseWS, ha, this]
      · simp [collapseWS, ha]
    | cons d cs =>
      rw [List.chain'_cons] at h2
      obtain ⟨had, h2'⟩ := h2
      have ihd : collapseWS (d :: cs) = d :: cs :=
        ih (fun c hc => h1 c (List.mem_cons_of_mem _ hc)) h2'
      by_cases ha : isPySpace a
      · have hd : isPySpace d = false := by
          rcases had with h | h
          · rw [ha] at h; exact absurd h (by simp)
          · exact h
        have haa : a = ' ' := h1 a (List.mem_cons_self _ _) ha
        simp [collapseWS, ha, hd, ihd, haa]
      · simp [collapseWS, ha, ihd]

theorem collapseWS_mem_of_not_space {l : List Char} {c : Char}
    (hc : c ∈ l) (hs : isPySpace c = false) : c ∈ collapseWS l := by
  induction l with
  | nil => simp at hc
  | cons a cs ih =>
    cases cs with
    | nil =>
      simp only [List.mem_singleton] at hc
      subst hc
      simp [collapseWS, hs]
    | cons d cs =>
      rcases List.mem_cons.mp hc with h | h
      · subst h
        simp [collapseWS, hs]
      · have hmem := ih h
        by_cases ha : isPySpace a
        · by_cases hd : isPySpace d
          · simpa [collapseWS, ha, hd] using hmem
          · simp [collapseWS, ha, hd, hmem]
        · simp [collapseWS, ha, hmem]

/-! ### Strip lemmas -/

theorem pyStrip_eq_rdrop (l : List Char) :
    pyStrip l = List.rdropWhile isPySpace (l.dropWhile isPySpace) := rfl

theorem pyStrip_eq_nil_iff {l : List Char} :
    pyStrip l = [] ↔ ∀ c ∈ l, isPySpace c = true := by
  rw [pyStrip_eq_rdrop, List.rdropWhile_eq_nil_iff]
  constructor
  · intro h c hc
    rcases List.mem_append.mp
        ((List.takeWhile_append_dropWhile isPySpace l) ▸ hc) with h1 | h1
    · exact List.mem_takeWhile_imp h1
    · exact h c h1
  · intro h c hc
    exact h c (List.dropWhile_sublist isPySpace |>.mem hc)

theorem pyStrip_within (l : List Char) : pyStrip l <:+: l := by
  rw [pyStrip_eq_rdrop]
  exact (List.rdropWhile_prefix _ _).isInfix.trans
    (List.dropWhile_suffix isPySpace).isInfix

theorem pyStrip_head_not {l : List Char} {a : Char}
    (h : (pyStrip l).head? = some a) : isPySpace a = false := by
  rw [pyStrip_eq_rdrop] at h
  obtain ⟨t, ht⟩ := List.rdropWhile_prefix isPySpace (l.dropWhile isPySpace)
  have h2 := List.head?_dropWhile_not isPySpace l
  rw [← ht, List.head?_append, h, Option.or_some] at h2
  exact h2

theorem pyStrip_last_not {l : List Char} {a : Char}
    (h : (pyStrip l).getLast? = some a) : isPySpace a = false := by
  rw [pyStrip_eq_rdrop] at h
  have hne : List.rdropWhile isPySpace (l.dropWhile isPySpace) ≠ [] := by
    intro hnil
    rw [hnil] at h
    simp at h
  have := List.rdropWhile_last_not isPySpace (l.dropWhile isPySpace) hne
  rw [List.getLast?_eq_getLast _ hne] at h
  simp only [Option.some.injEq] at h
  rw [← h]
  simpa using this

theorem pyStrip_eq_self {l : List Char}
    (h1 : ∀ a, l.head? = some a → isPySpace a = false)
    (h2 : ∀ a, l.getLast? = some a → isPySpace a = false) : pyStrip l = l := by
  rw [pyStrip_eq_rdrop]
  have hd : l.dropWhile isPySpace = l := by
    cases l with
    | nil => rfl
    | cons a t => exact List.dropWhile_cons_of_neg (by simp [h1 a rfl])
  rw [hd]
  rw [List.rdropWhile_eq_self_iff]
  intro hne
  rw [h2 _ (List.getLast?_eq_getLast l hne)]
  simp

/-! ### Idempotence of `standardize_name` -/

/-- The lowercase-collapse-strip pipeline applied by `standardize_name` to a
non-blank input. -/
def stdCore (l : List Char) : List Char :=
  pyStrip (collapseWS (l.map pyLowerChar))

theorem stdCore_mem {l : List Char} {c : Char} (h : c ∈ stdCore l) :
    (isPySpace c = true → c = ' ') ∧ pyLowerChar c = c := by
  have hc : c ∈ collapseWS (l.map pyLowerChar) :=
    (pyStrip_within _).sublist.mem h
  rcases collapseWS_mem hc with h1 | ⟨h1, h2⟩
  · subst h1
    exact ⟨fun _ => rfl, by decide⟩
  · obtain ⟨c0, _, hc0⟩ := List.mem_map.mp h1
    refine ⟨fun hsp => absurd (hsp ▸ h2) (by simp), ?_⟩
    rw [← hc0]
    exact pyLowerChar_toLower_fixed c0

theorem stdCore_chain (l : List Char) : List.Chain' RWS (stdCore l) :=
  List.Chain'.infix (collapseWS_chain (l.map pyLowerChar)) (pyStrip_within _)

theorem stdCore_ne_nil {l : List Char} (h : pyStrip l ≠ []) :
    stdCore l ≠ [] := by
  intro hnil
  apply h
  rw [pyStrip_eq_nil_iff]
  intro c hc
  by_contra hcs
  have hlc : pyLowerChar c ∈ (l.map pyLowerChar) := List.mem_map_of_mem _ hc
  have hlcs : isPySpace (pyLowerChar c) = false := by
    rw [isPySpace_pyLowerChar]
    simpa using hcs
  have : pyLowerChar c ∈ collapseWS (l.map pyLowerChar) :=
    collapseWS_mem_of_not_space hlc hlcs
  unfold stdCore at hnil
  rw [pyStrip_eq_nil_iff] at hnil
  have := hnil _ this
  rw [this] at hlcs
  simp at hlcs

theorem stdCore_idem (l : List Char) : stdCore (stdCore l) = stdCore l := by
  set t := stdCore l with ht
  have hmap : t.map pyLowerChar = t :=
    (List.map_congr_left fun c hc => (stdCore_mem (ht ▸ hc)).2).trans
      (List.map_id t)
  have hcol : collapseWS t = t :=
    collapseWS_eq_self (fun c hc hsp => (stdCore_mem (ht ▸ hc)).1 hsp)
      (ht ▸ stdCore_chain l)
  have hstrip : pyStrip t = t := by
    apply pyStrip_eq_self
    · intro a ha
      exact pyStrip_head_not (l := collapseWS (l.map pyLowerChar)) ha
    · intro a ha
      exact pyStrip_last_not (l := collapseWS (l.map pyLowerChar)) ha
  show pyStrip (collapseWS (t.map pyLowerChar)) = t
  rw [hmap, hcol, hstrip]

theorem pyStrip_stdCore (l : List Char) : pyStrip (stdCore l) = stdCore l := by
  apply pyStrip_eq_self
  · intro a ha
    exact pyStrip_head_not (l := collapseWS (l.map pyLowerChar)) ha
  · intro a ha
    exact pyStrip_last_not (l := collapseWS (l.map pyLowerChar)) ha

theorem standardize_some (s : String) :
    standardize_name (some s) =
      if pyStrip s.data = [] then "" else String.mk (stdCore s.data) := rfl

/-- C6: `standardize_name` is idempotent, and `None`, `""` and
whitespace-only strings all standardize to the empty string; the function
is total (defined for every `Option String` input). -/
theorem claim_C6 (x : Option String) (s : String)
    (hws : ∀ c ∈ s.data, isPySpace c = true) :
    standardize_name (some (standardize_name x)) = standardize_name x ∧
    standardize_name none = "" ∧
    standardize_name (some "") = "" ∧
    standardize_name (some s) = "" := by
  refine ⟨?_, rfl, rfl, ?_⟩
  · rcases x with _ | s0
    · rfl
    · rw [standardize_some s0]
      by_cases hb : pyStrip s0.data = []
      · rw [if_pos hb]
        rfl
      · rw [if_neg hb, standardize_some (String.mk (stdCore s0.data))]
        have hdata : (String.mk (stdCore s0.data)).data = stdCore s0.data := rfl
        rw [hdata, pyStrip_stdCore]
        rw [if_neg (stdCore_ne_nil hb), stdCore_idem]
  · rw [standardize_some s, if_pos (pyStrip_eq_nil_iff.mpr hws)]

/-- Witness for C6 at concrete inputs. -/
theorem claim_C6_witness :
    standardize_name (some (standardize_name (some "  Mary-Jane   OBrien "))) =
      standardize_name (some "  Mary-Jane   OBrien ") ∧
    standardize_name none = "" ∧
    standardize_name (some "") = "" ∧
    standardize_name (some "  \t ") = "" :=
  claim_C6 (some "  Mary-Jane   OBrien ") "  \t " (by decide)

/-! ## Fuzzy matching (`rapidfuzz` model and `fuzzy_match_friends`) -/

attribute [local semireducible] Rat.mul Rat.inv Rat.add Rat.sub

/-- Length of a longest common subsequence, with explicit structural fuel
(any fuel of at least `|a| + |b|` is exact; every recursive call lowers the
total length by at least one). -/
def lcsFuel : Nat → List Char → List Char → Nat
  | 0, _, _ => 0
  | _, [], _ => 0
  | _, _ :: _, [] => 0
  | fuel + 1, a :: as, b :: bs =>
    if a = b then 1 + lcsFuel fuel as bs
    else max (lcsFuel fuel (a :: as) bs) (lcsFuel fuel as (b :: bs))

/-- Length of a longest common subsequence of two character lists. -/
def lcsLen (a b : List Char) : Nat :=
  lcsFuel (a.length + b.length) a b

/-- `rapidfuzz.fuzz.ratio`: normalized Indel similarity on a 0-100 scale,
`100 * 2*lcs(a,b) / (|a|+|b|)`; two empty strings score 100. -/
def fuzzRatio (a b : List Char) : ℚ :=
  if a.length + b.length = 0 then 100
  else 100 * (2 * (lcsLen a b : ℚ)) / ((a.length : ℚ) + (b.length : ℚ))

/-- `rapidfuzz.process.extractOne` scan: keep the first best-scoring choice,
replacing the incumbent only on strict improvement. -/
def extractBestAux (query : List Char) :
    List (List Char) → Nat → Option (Nat × ℚ) → Option (Nat × ℚ)
  | [], _, best => best
  | c :: cs, i, best =>
    let s := fuzzRatio query c
    extractBestAux query cs (i + 1)
      (match best with
       | none => some (i, s)
       | some (bi, bs) => if bs < s then some (i, s) else some (bi, bs))

/-- `process.extractOne(query, choices, scorer=fuzz.ratio, score_cutoff=cutoff)`:
index of the best match, or `none` if the best score is below the cutoff. -/
def extractOne_model (query : List Char) (choices : List (List Char))
    (cutoff : ℚ) : Option Nat :=
  match extractBestAux query choices 0 none with
  | some (i, s) => if cutoff ≤ s then some i else none
  | none => none

/-- Python `dict` lookup `d.get(k)`: value at the first (unique) entry for
`k`, or `none` when the key is absent. -/
def dictGet {β : Type} : List (String × β) → String → Option β
  | [], _ => none
  | (k1, v1) :: d, k => if k = k1 then some v1 else dictGet d k

/-- Overwrite the value stored at an existing key, keeping its position. -/
def dictOverwrite {β : Type} : List (String × β) → String → β → List (String × β)
  | [], _, _ => []
  | (k1, v1) :: d, k, v =>
    if k1 = k then (k1, v) :: dictOverwrite d k v
    else (k1, v1) :: dictOverwrite d k v

/-- Python `dict` assignment `d[k] = v`: overwrite in place if the key is
present (keeping its insertion position), else append. -/
def dictInsert (d : List (String × Option String)) (k : String)
    (v : Option String) : List (String × Option String) :=
  if d.any (fun p => p.1 == k) then dictOverwrite d k v
  else d ++ [(k, v)]

/-- One iteration of the `for friend_name in friend_names` loop of
`fuzzy_match_friends`. -/
def fmfStep (student_list : List String) (threshold : ℚ)
    (ms : List (String × Option String)) (friend_name : String) :
    List (String × Option String) :=
  if friend_name = "" ∨ pyStrip friend_name.data = [] then ms
  else if (standardize_name (some friend_name)).data = [] then ms
  else
    match extractOne_model (standardize_name (some friend_name)).data
        (student_list.map (fun s => (standardize_name (some s)).data))
        threshold with
    | some index => dictInsert ms friend_name
        (some (student_list.getD index ""))
    | none => dictInsert ms friend_name none

/-- `fuzzy_match_friends` from `class_allocation.py`: map each non-blank raw
friend name to the best fuzzy roster match above the threshold (or `none`).
The result is the insertion-ordered dict of the Python function. -/
def fuzzy_match_friends (friend_names : List String)
    (student_list : List String) (threshold : ℚ) :
    List (String × Option String) :=
  friend_names.foldl (fmfStep student_list threshold) []

/-! ### Dict-lookup lemmas -/

theorem dictGet_overwrite_ne {β : Type} (d : List (String × β))
    (k0 k : String) (v : β) (h : k ≠ k0) :
    dictGet (dictOverwrite d k0 v) k = dictGet d k := by
  induction d with
  | nil => rfl
  | cons q d ih =>
    obtain ⟨q1, q2⟩ := q
    by_cases hq : q1 = k0
    · rw [dictOverwrite, if_pos hq, dictGet, dictGet,
        if_neg (hq ▸ h), if_neg (hq ▸ h)]
      exact ih
    · rw [dictOverwrite, if_neg hq, dictGet, dictGet]
      by_cases hkq : k = q1
      · rw [if_pos hkq, if_pos hkq]
      · rw [if_neg hkq, if_neg hkq]
        exact ih

theorem dictGet_overwrite_eq {β : Type} (d : List (String × β))
    (k0 : String) (v : β)
    (h : d.any (fun p => p.1 == k0) = true) :
    dictGet (dictOverwrite d k0 v) k0 = some v := by
  induction d with
  | nil => simp at h
  | cons q d ih =>
    obtain ⟨q1, q2⟩ := q
    by_cases hq : q1 = k0
    · rw [dictOverwrite, if_pos hq, dictGet, if_pos hq.symm]
    · rw [dictOverwrite, if_neg hq, dictGet, if_neg (Ne.symm hq)]
      apply ih
      simp only [List.any_cons, Bool.or_eq_true] at h
      rcases h with h | h
      · exact absurd (by simpa using h) hq
      · exact h

theorem dictGet_append_single {β : Type} (d : List (String × β))
    (k0 k : String) (v : β) :
    dictGet (d ++ [(k0, v)]) k =
      ((dictGet d k).or (if k = k0 then some v else none)) := by
  induction d with
  | nil =>
    by_cases hk : k = k0
    · simp [dictGet, hk]
    · simp [dictGet, hk]
  | cons q d ih =>
    obtain ⟨q1, q2⟩ := q
    rw [List.cons_append]
    by_cases hkq : k = q1
    · simp only [dictGet, if_pos hkq]
      rfl
    · simp only [dictGet, if_neg hkq]
      exact ih

theorem dictGet_eq_none_of_any_false {β : Type} (d : List (String × β))
    (k : String) (h : d.any (fun p => p.1 == k) = false) :
    dictGet d k = none := by
  induction d with
  | nil => rfl
  | cons q d ih =>
    obtain ⟨q1, q2⟩ := q
    simp only [List.any_cons, Bool.or_eq_false_iff] at h
    rw [dictGet]
    have hk : ¬k = q1 := by
      have := h.1
      simp only [beq_eq_false_iff_ne, ne_eq] at this
      exact fun hkq => this (hkq ▸ rfl)
    rw [if_neg hk]
    exact ih h.2

theorem dictGet_dictInsert (d : List (String × Option String))
    (k0 k : String) (v : Option String) :
    dictGet (dictInsert d k0 v) k =
      if k = k0 then some v else dictGet d k := by
  unfold dictInsert
  by_cases hany : d.any (fun p => p.1 == k0) = true
  · rw [if_pos hany]
    by_cases hk : k = k0
    · subst hk
      rw [if_pos rfl]
      exact dictGet_overwrite_eq d k v hany
    · rw [if_neg hk]
      exact dictGet_overwrite_ne d k0 k v hk
  · rw [if_neg hany, dictGet_append_single]
    by_cases hk : k = k0
    · subst hk
      rw [dictGet_eq_none_of_any_false d k (eq_false_of_ne_true hany)]
      simp
    · rw [if_neg hk, if_neg hk]
      cases dictGet d k <;> rfl

/-! ### Threshold monotonicity -/

theorem extractOne_model_mono {query : List Char} {choices : List (List Char)}
    {t1 t2 : ℚ} {i : Nat} (ht : t1 ≤ t2)
    (h : extractOne_model query choices t2 = some i) :
    extractOne_model query choices t1 = some i := by
  unfold extractOne_model at h ⊢
  cases hb : extractBestAux query choices 0 none with
  | none =>
    rw [hb] at h
    exact absurd h (by simp)
  | some p =>
    obtain ⟨j, s⟩ := p
    rw [hb] at h
    replace h : (if t2 ≤ s then some j else none) = some i := h
    show (if t1 ≤ s then some j else none) = some i
    by_cases hc : t2 ≤ s
    · rw [if_pos hc] at h
      rw [if_pos (le_trans ht hc)]
      exact h
    · rw [if_neg hc] at h
      exact absurd h (by simp)

theorem fmf_fold_mono (sl : List String) (t1 t2 : ℚ) (ht : t1 ≤ t2)
    (L : List String) :
    ∀ (d1 d2 : List (String × Option String)),
      (∀ k v, dictGet d2 k = some (some v) → dictGet d1 k = some (some v)) →
      ∀ k v, dictGet (L.foldl (fmfStep sl t2) d2) k = some (some v) →
        dictGet (L.foldl (fmfStep sl t1) d1) k = some (some v) := by
  induction L with
  | nil =>
    intro d1 d2 hInv k v h
    exact hInv k v h
  | cons fn L ih =>
    intro d1 d2 hInv k v h
    simp only [List.foldl_cons] at h ⊢
    refine ih (fmfStep sl t1 d1 fn) (fmfStep sl t2 d2 fn) ?_ k v h
    intro k1 v1 h1
    unfold fmfStep at h1 ⊢
    by_cases hskip : fn = "" ∨ pyStrip fn.data = []
    · rw [if_pos hskip] at h1 ⊢
      exact hInv k1 v1 h1
    · rw [if_neg hskip] at h1 ⊢
      by_cases hstd : (standardize_name (some fn)).data = []
      · rw [if_pos hstd] at h1 ⊢
        exact hInv k1 v1 h1
      · rw [if_neg hstd] at h1 ⊢
        cases ho2 : extractOne_model (standardize_name (some fn)).data
            (sl.map (fun s => (standardize_name (some s)).data)) t2 with
        | some i =>
          rw [ho2] at h1
          replace h1 : dictGet (dictInsert d2 fn (some (sl.getD i ""))) k1 =
            some (some v1) := h1
          rw [extractOne_model_mono ht ho2]
          show dictGet (dictInsert d1 fn (some (sl.getD i ""))) k1 =
            some (some v1)
          rw [dictGet_dictInsert] at h1 ⊢
          by_cases hk : k1 = fn
          · rw [if_pos hk] at h1 ⊢
            exact h1
          · rw [if_neg hk] at h1 ⊢
            exact hInv k1 v1 h1
        | none =>
          rw [ho2] at h1
          replace h1 : dictGet (dictInsert d2 fn none) k1 =
            some (some v1) := h1
          rw [dictGet_dictInsert] at h1
          by_cases hk : k1 = fn
          · rw [if_pos hk] at h1
            exact absurd (Option.some.inj h1) (by simp)
          · rw [if_neg hk] at h1
            cases ho1 : extractOne_model (standardize_name (some fn)).data
                (sl.map (fun s => (standardize_name (some s)).data)) t1 with
            | some j =>
              show dictGet (dictInsert d1 fn (some (sl.getD j ""))) k1 =
                some (some v1)
              rw [dictGet_dictInsert, if_neg hk]
              exact hInv k1 v1 h1
            | none =>
              show dictGet (dictInsert d1 fn none) k1 = some (some v1)
              rw [dictGet_dictInsert, if_neg hk]
              exact hInv k1 v1 h1

/-- C5: matches accepted by `fuzzy_match_friends` at a higher threshold are
accepted, with the same roster name, at any lower threshold. -/
theorem claim_C5 (friend_names student_list : List String) (t1 t2 : ℚ)
    (raw m : String) (ht : t1 ≤ t2)
    (h : dictGet (fuzzy_match_friends friend_names student_list t2) raw =
      some (some m)) :
    dictGet (fuzzy_match_friends friend_names student_list t1) raw =
      some (some m) := by
  refine fmf_fold_mono student_list t1 t2 ht friend_names [] [] ?_ raw m h
  intro k v hv
  exact absurd hv (by simp [dictGet])

/-- Witness for C5: the match accepted at threshold 50 is also accepted,
with the same roster name, at threshold 40. -/
theorem claim_C5_witness :
    dictGet (fuzzy_match_friends ["bob"] ["Alice Smith", "Bob Jones"] 40)
      "bob" = some (some "Bob Jones") :=
  claim_C5 ["bob"] ["Alice Smith", "Bob Jones"] 40 50 "bob" "Bob Jones"
    (by norm_num) (by decide)

/-- C7: at threshold 50 the raw name `bob` resolves to `Bob Jones`; at
threshold 95 it resolves to no match, the two candidate scores being 50 and
0, both below 95. -/
theorem claim_C7 :
    dictGet (fuzzy_match_friends ["bob"] ["Alice Smith", "Bob Jones"] 50)
      "bob" = some (some "Bob Jones") ∧
    dictGet (fuzzy_match_friends ["bob"] ["Alice Smith", "Bob Jones"] 95)
      "bob" = some none ∧
    fuzzRatio (standardize_name (some "bob")).data
      (standardize_name (some "Bob Jones")).data = 50 ∧
    fuzzRatio (standardize_name (some "bob")).data
      (standardize_name (some "Alice Smith")).data = 0 :=
  ⟨by decide, by decide, by decide, by decide⟩

/-! ## Friendship graph (`build_friendship_graph`) -/

/-- One row of the loaded DataFrame: a student name and the four raw
`Friend 1`..`Friend 4` columns. -/
structure Row where
  studentName : String
  friend1 : String
  friend2 : String
  friend3 : String
  friend4 : String

/-- The non-empty, stripped friend entries of a row, in column order
(`if friend_value and str(friend_value).strip()`). -/
def collectFriendNames (r : Row) : List String :=
  [r.friend1, r.friend2, r.friend3, r.friend4].foldr
    (fun v acc =>
      if v ≠ "" ∧ pyStrip v.data ≠ [] then String.mk (pyStrip v.data) :: acc
      else acc) []

/-- Keys of a Python dict comprehension over a list: duplicates collapse,
first occurrence keeps its position. -/
def firstDedupAux : List String → List String → List String
  | [], _ => []
  | a :: l, seen =>
    if a ∈ seen then firstDedupAux l seen
    else a :: firstDedupAux l (a :: seen)

def firstDedup (l : List String) : List String := firstDedupAux l []

/-- `graph[k].append(v)`: append `v` to the friend list stored at key `k`. -/
def graphAppend : List (String × List String) → String → String →
    List (String × List String)
  | [], _, _ => []
  | (k1, v1) :: g, k, v =>
    if k1 = k then (k1, v1 ++ [v]) :: graphAppend g k v
    else (k1, v1) :: graphAppend g k v

/-- One step of the `for friend_input, matched_student in matches.items()`
loop: append a successful match that is neither falsy (`""`/`None`) nor the
student themselves. -/
def rowStep (key : String) (g : List (String × List String))
    (p : String × Option String) : List (String × List String) :=
  match p.2 with
  | some m => if m ≠ "" ∧ m ≠ key then graphAppend g key m else g
  | none => g

/-- Body of the `for idx, row in df.iterrows()` loop of
`build_friendship_graph`: fuzzy-match the row's friends against the roster
and append every successful match that is not the student themselves. -/
def processRow (student_list : List String) (threshold : ℚ)
    (graph : List (String × List String)) (row : Row) :
    List (String × List String) :=
  if collectFriendNames row = [] then graph
  else
    (fuzzy_match_friends (collectFriendNames row) student_list threshold).foldl
      (rowStep row.studentName) graph

/-- `build_friendship_graph` from `class_allocation.py`. -/
def build_friendship_graph (df : List Row) (threshold : ℚ) :
    List (String × List String) :=
  df.foldl (processRow (df.map (fun r => r.studentName)) threshold)
    ((firstDedup (df.map (fun r => r.studentName))).map
      (fun s => (s, ([] : List String))))

/-! ### Graph lemmas -/

theorem dictGet_graphAppend (g : List (String × List String))
    (k k1 : String) (v : String) :
    dictGet (graphAppend g k v) k1 =
      if k1 = k then (dictGet g k1).map (fun l => l ++ [v])
      else dictGet g k1 := by
  induction g with
  | nil =>
    by_cases hk : k1 = k
    · rw [if_pos hk]
      rfl
    · rw [if_neg hk]
      rfl
  | cons q g ih =>
    obtain ⟨q1, q2⟩ := q
    by_cases hk : k1 = k
    · rw [if_pos hk]
      subst hk
      by_cases hq : q1 = k1
      · rw [graphAppend, if_pos hq, dictGet, dictGet, if_pos hq.symm,
          if_pos hq.symm]
        rfl
      · rw [graphAppend, if_neg hq, dictGet, dictGet,
          if_neg (fun h => hq h.symm), if_neg (fun h => hq h.symm), ih,
          if_pos rfl]
    · rw [if_neg hk]
      by_cases hq : q1 = k
      · rw [graphAppend, if_pos hq, dictGet, dictGet]
        by_cases hk1q : k1 = q1
        · exact absurd (hk1q.trans hq) hk
        · rw [if_neg hk1q, if_neg hk1q, ih, if_neg hk]
      · rw [graphAppend, if_neg hq, dictGet, dictGet]
        by_cases hk1q : k1 = q1
        · rw [if_pos hk1q, if_pos hk1q]
        · rw [if_neg hk1q, if_neg hk1q, ih, if_neg hk]

theorem mem_firstDedupAux {a : String} : ∀ (l seen : List String),
    a ∈ l → a ∉ seen → a ∈ firstDedupAux l seen := by
  intro l
  induction l with
  | nil =>
    intro seen h
    simp at h
  | cons b l ih =>
    intro seen hmem hseen
    by_cases hb : b ∈ seen
    · rw [firstDedupAux, if_pos hb]
      rcases List.mem_cons.mp hmem with h | h
      · exact absurd (h ▸ hb) hseen
      · exact ih seen h hseen
    · rw [firstDedupAux, if_neg hb]
      by_cases hab : a = b
      · exact hab ▸ List.mem_cons_self b _
      · rcases List.mem_cons.mp hmem with h | h
        · exact absurd h hab
        · refine List.mem_cons_of_mem _ (ih (b :: seen) h ?_)
          intro hx
          rcases List.mem_cons.mp hx with h1 | h1
          · exact hab h1
          · exact hseen h1

theorem mem_firstDedup {a : String} {l : List String} (h : a ∈ l) :
    a ∈ firstDedup l :=
  mem_firstDedupAux l [] h (by simp)

theorem dictGet_initGraph (keys : List String) (s : String) (h : s ∈ keys) :
    dictGet (keys.map (fun k => (k, ([] : List String)))) s = some [] := by
  induction keys with
  | nil => simp at h
  | cons k keys ih =>
    rw [List.map_cons, dictGet]
    by_cases hs : s = k
    · rw [if_pos hs]
    · rw [if_neg hs]
      exact ih (List.mem_of_ne_of_mem hs h)

theorem rowStep_inv (key : String) (p : String × Option String)
    (g : List (String × List String)) (s : String)
    (h1 : (dictGet g s).isSome = true)
    (h2 : s ∉ (dictGet g s).getD []) :
    (dictGet (rowStep key g p) s).isSome = true ∧
      s ∉ (dictGet (rowStep key g p) s).getD [] := by
  obtain ⟨p1, p2⟩ := p
  cases p2 with
  | none => exact ⟨h1, h2⟩
  | some m =>
    have hstep : rowStep key g (p1, some m) =
        if m ≠ "" ∧ m ≠ key then graphAppend g key m else g := rfl
    rw [hstep]
    by_cases hm : m ≠ "" ∧ m ≠ key
    · rw [if_pos hm]
      obtain ⟨old, hold⟩ := Option.isSome_iff_exists.mp h1
      rw [dictGet_graphAppend]
      by_cases hs : s = key
      · rw [if_pos hs, hold]
        refine ⟨rfl, ?_⟩
        rw [hold] at h2
        show s ∉ old ++ [m]
        intro hmem
        rcases List.mem_append.mp hmem with h | h
        · exact h2 h
        · rw [List.mem_singleton] at h
          exact hm.2 (h ▸ hs)
      · rw [if_neg hs]
        exact ⟨h1, h2⟩
    · rw [if_neg hm]
      exact ⟨h1, h2⟩

theorem foldl_rowStep_inv (key : String)
    (entries : List (String × Option String)) :
    ∀ (g : List (String × List String)) (s : String),
      (dictGet g s).isSome = true → s ∉ (dictGet g s).getD [] →
      (dictGet (entries.foldl (rowStep key) g) s).isSome = true ∧
        s ∉ (dictGet (entries.foldl (rowStep key) g) s).getD [] := by
  induction entries with
  | nil =>
    intro g s h1 h2
    exact ⟨h1, h2⟩
  | cons p ps ih =>
    intro g s h1 h2
    rw [List.foldl_cons]
    obtain ⟨h1a, h2a⟩ := rowStep_inv key p g s h1 h2
    exact ih (rowStep key g p) s h1a h2a

theorem processRow_inv (sl : List String) (t : ℚ) (row : Row)
    (g : List (String × List String)) (s : String)
    (h1 : (dictGet g s).isSome = true)
    (h2 : s ∉ (dictGet g s).getD []) :
    (dictGet (processRow sl t g row) s).isSome = true ∧
      s ∉ (dictGet (processRow sl t g row) s).getD [] := by
  unfold processRow
  by_cases hempty : collectFriendNames row = []
  · rw [if_pos hempty]
    exact ⟨h1, h2⟩
  · rw [if_neg hempty]
    exact foldl_rowStep_inv row.studentName _ g s h1 h2

theorem foldl_processRow_inv (sl : List String) (t : ℚ) (rows : List Row) :
    ∀ (g : List (String × List String)) (s : String),
      (dictGet g s).isSome = true → s ∉ (dictGet g s).getD [] →
      (dictGet (rows.foldl (processRow sl t) g) s).isSome = true ∧
        s ∉ (dictGet (rows.foldl (processRow sl t) g) s).getD [] := by
  induction rows with
  | nil =>
    intro g s h1 h2
    exact ⟨h1, h2⟩
  | cons r rows ih =>
    intro g s h1 h2
    rw [List.foldl_cons]
    obtain ⟨h1a, h2a⟩ := processRow_inv sl t r g s h1 h2
    exact ih (processRow sl t g r) s h1a h2a

/-- C4: the friendship graph has every roster student as a key and no
self-loops: `s ∉ graph[s]`, and students with no matched friends are
present with an empty list rather than absent. -/
theorem claim_C4 (df : List Row) (threshold : ℚ) (s : String)
    (hs : s ∈ df.map (fun r => r.studentName)) :
    (dictGet (build_friendship_graph df threshold) s).isSome = true ∧
      s ∉ (dictGet (build_friendship_graph df threshold) s).getD [] := by
  unfold build_friendship_graph
  apply foldl_processRow_inv
  · rw [dictGet_initGraph _ s (mem_firstDedup hs)]
    rfl
  · rw [dictGet_initGraph _ s (mem_firstDedup hs)]
    simp

/-- Witness for C4 on a two-student roster with a mutual friendship. -/
theorem claim_C4_witness :
    (dictGet (build_friendship_graph
        [⟨"Alice", "Bob", "", "", ""⟩, ⟨"Bob", "Alice", "", "", ""⟩] 85)
      "Alice").isSome = true ∧
    "Alice" ∉ (dictGet (build_friendship_graph
        [⟨"Alice", "Bob", "", "", ""⟩, ⟨"Bob", "Alice", "", "", ""⟩] 85)
      "Alice").getD [] :=
  claim_C4 [⟨"Alice", "Bob", "", "", ""⟩, ⟨"Bob", "Alice", "", "", ""⟩]
    85 "Alice" (by decide)

/-- C10: `build_friendship_graph` does not deduplicate matched friends.  In
the roster `Bob Jones, Alice, Carol` at threshold 50, Alice's two distinct
raw entries `bob` and `bob jones` both resolve to `Bob Jones`, which hence
appears twice in her list (out-degree 2), while Carol's two identical raw
entries `bob jones` collapse to a single dict key and contribute once. -/
theorem claim_C10 :
    ("bob" : String) ≠ "bob jones" ∧
    (dictGet (build_friendship_graph
        [⟨"Bob Jones", "", "", "", ""⟩,
         ⟨"Alice", "bob", "bob jones", "", ""⟩,
         ⟨"Carol", "bob jones", "bob jones", "", ""⟩] 50)
      "Alice").getD [] = ["Bob Jones", "Bob Jones"] ∧
    (dictGet (build_friendship_graph
        [⟨"Bob Jones", "", "", "", ""⟩,
         ⟨"Alice", "bob", "bob jones", "", ""⟩,
         ⟨"Carol", "bob jones", "bob jones", "", ""⟩] 50)
      "Carol").getD [] = ["Bob Jones"] :=
  ⟨by decide, by decide, by decide⟩

/-! ## Validator (`validate_groups`) -/

/-- `friendship_graph.get(student, [])`. -/
def lookupGraph (fg : List (String × List String)) (s : String) :
    List String :=
  (dictGet fg s).getD []

/-- Mutable locals of the analysis loop of `validate_groups`:
`friend_count_distribution` (buckets 0..4), `students_without_friends`,
`total_friends_in_groups`. -/
structure VState where
  hist : List Nat
  noFriends : List String
  totalFriends : Nat

/-- Body of `for student in group`: count the student's friends co-located
in their group, bump the capped histogram bucket, and record friendless
students. -/
def analyzeStudent (fg : List (String × List String)) (group : List String)
    (st : VState) (student : String) : VState :=
  { hist := st.hist.set (min ((lookupGraph fg student).filter
        (fun f => decide (f ∈ group))).length 4)
      (st.hist.getD (min ((lookupGraph fg student).filter
        (fun f => decide (f ∈ group))).length 4) 0 + 1)
    noFriends := if ((lookupGraph fg student).filter
        (fun f => decide (f ∈ group))).length = 0
      then st.noFriends ++ [student] else st.noFriends
    totalFriends := st.totalFriends + ((lookupGraph fg student).filter
        (fun f => decide (f ∈ group))).length }

/-- The nested `for group in groups: for student in group` analysis loop. -/
def analyzeAll (fg : List (String × List String))
    (groups : List (List String)) : VState :=
  groups.foldl (fun st grp => grp.foldl (analyzeStudent fg grp) st)
    ⟨[0, 0, 0, 0, 0], [], 0⟩

/-- Python `max(l)` (`none` on an empty list, where Python raises). -/
def pyMax : List Nat → Option Nat
  | [] => none
  | a :: l =>
    match pyMax l with
    | none => some a
    | some m => some (max a m)

/-- Python `min(l)` (`none` on an empty list, where Python raises). -/
def pyMin : List Nat → Option Nat
  | [] => none
  | a :: l =>
    match pyMin l with
    | none => some a
    | some m => some (min a m)

/-- CPython `round` at a half: round half to even. -/
def roundHalfEven (q : ℚ) : ℤ :=
  if q - ⌊q⌋ < 1/2 then ⌊q⌋
  else if 1/2 < q - ⌊q⌋ then ⌊q⌋ + 1
  else if ⌊q⌋ % 2 = 0 then ⌊q⌋ else ⌊q⌋ + 1

/-- Python `round(x, 2)` on the exact rational model of the float. -/
def pyRound2 (q : ℚ) : ℚ := (roundHalfEven (q * 100) : ℚ) / 100

/-- The validation-report dict of `validate_groups`; the `min`/`max`/
`variance` keys are only added when `group_sizes` is non-empty. -/
structure ValidationReport where
  group_sizes : List Nat
  total_students : Nat
  students_with_friends : List Nat
  students_with_0_friends : Nat
  students_without_friends_list : List String
  satisfaction_rate : ℚ
  average_friends_per_student : ℚ
  min_group_size : Option Nat
  max_group_size : Option Nat
  group_size_variance : Option Nat

/-- Assembly of the validation dict from the analysis state. -/
def assembleReport (groups : List (List String)) (st : VState) :
    ValidationReport :=
  { group_sizes := groups.map (fun g => g.length)
    total_students := (groups.map (fun g => g.length)).sum
    students_with_friends := st.hist
    students_with_0_friends := st.hist.getD 0 0
    students_without_friends_list := st.noFriends
    satisfaction_rate :=
      if 0 < (groups.map (fun g => g.length)).sum then
        pyRound2 (((((groups.map (fun g => g.length)).sum : ℕ) : ℚ) -
            ((st.hist.getD 0 0 : ℕ) : ℚ)) /
          (((groups.map (fun g => g.length)).sum : ℕ) : ℚ) * 100)
      else 0
    average_friends_per_student :=
      if 0 < (groups.map (fun g => g.length)).sum then
        pyRound2 (((st.totalFriends : ℕ) : ℚ) /
          (((groups.map (fun g => g.length)).sum : ℕ) : ℚ))
      else 0
    min_group_size :=
      if groups.map (fun g => g.length) = [] then none
      else pyMin (groups.map (fun g => g.length))
    max_group_size :=
      if groups.map (fun g => g.length) = [] then none
      else pyMax (groups.map (fun g => g.length))
    group_size_variance :=
      if groups.map (fun g => g.length) = [] then none
      else
        match pyMax (groups.map (fun g => g.length)),
            pyMin (groups.map (fun g => g.length)) with
        | some a, some b => some (a - b)
        | _, _ => none }

/-- `validate_groups` from `class_allocation.py`. -/
def validate_groups (groups : List (List String))
    (fg : List (String × List String)) : ValidationReport :=
  assembleReport groups (analyzeAll fg groups)

/-- The number of students with at least one friend co-located in their own
group (the quantity whose percentage is the satisfaction rate). -/
def satCount (groups : List (List String))
    (fg : List (String × List String)) : Nat :=
  (groups.map (fun grp => (grp.filter (fun s =>
    (lookupGraph fg s).any (fun f => decide (f ∈ grp)))).length)).sum

/-! ### Validator lemmas -/

theorem filterLen_zero_iff (fg : List (String × List String))
    (grp : List String) (s : String) :
    ((lookupGraph fg s).filter (fun f => decide (f ∈ grp))).length = 0 ↔
      ((lookupGraph fg s).any (fun f => decide (f ∈ grp))) = false := by
  rw [List.length_eq_zero, List.filter_eq_nil_iff, List.any_eq_false]

theorem analyze_inner (fg : List (String × List String)) (grp : List String) :
    ∀ (members : List String) (st : VState), st.hist.length = 5 →
      ((members.foldl (analyzeStudent fg grp) st).hist.length = 5 ∧
        (members.foldl (analyzeStudent fg grp) st).hist.getD 0 0 =
          st.hist.getD 0 0 + (members.filter (fun s =>
            !((lookupGraph fg s).any (fun f => decide (f ∈ grp))))).length) := by
  intro members
  induction members with
  | nil =>
    intro st h5
    exact ⟨h5, by simp⟩
  | cons s members ih =>
    intro st h5
    rw [List.foldl_cons]
    have hlen : (analyzeStudent fg grp st s).hist.length = 5 := by
      rw [analyzeStudent]
      simpa using h5
    obtain ⟨ih1, ih2⟩ := ih (analyzeStudent fg grp st s) hlen
    refine ⟨ih1, ?_⟩
    rw [ih2]
    by_cases hn : ((lookupGraph fg s).filter
        (fun f => decide (f ∈ grp))).length = 0
    · have hany : ((lookupGraph fg s).any (fun f => decide (f ∈ grp))) =
          false := (filterLen_zero_iff fg grp s).mp hn
      have hd : (analyzeStudent fg grp st s).hist.getD 0 0 =
          st.hist.getD 0 0 + 1 := by
        rw [analyzeStudent]
        simp only [hn]
        have h05 : (0 : Nat) < st.hist.length := by omega
        simp [List.getD_eq_getElem?_getD, List.getElem?_set_self h05,
          Nat.min_def]
      rw [hd, List.filter_cons]
      simp only [hany, Bool.not_false, if_pos, List.length_cons]
      omega
    · have hany : ((lookupGraph fg s).any (fun f => decide (f ∈ grp))) =
          true := by
        rcases Bool.eq_false_or_eq_true ((lookupGraph fg s).any
          (fun f => decide (f ∈ grp))) with h | h
        · exact h
        · exact absurd ((filterLen_zero_iff fg grp s).mpr h) hn
      have hd : (analyzeStudent fg grp st s).hist.getD 0 0 =
          st.hist.getD 0 0 := by
        rw [analyzeStudent]
        have hne : min ((lookupGraph fg s).filter
            (fun f => decide (f ∈ grp))).length 4 ≠ 0 := by
          omega
        simp [List.getD_eq_getElem?_getD, List.getElem?_set_ne hne]
      rw [hd, List.filter_cons]
      simp only [hany]
      simp

theorem analyze_outer (fg : List (String × List String)) :
    ∀ (gs : List (List String)) (st : VState), st.hist.length = 5 →
      ((gs.foldl (fun st grp => grp.foldl (analyzeStudent fg grp) st)
          st).hist.length = 5 ∧
        (gs.foldl (fun st grp => grp.foldl (analyzeStudent fg grp) st)
          st).hist.getD 0 0 =
          st.hist.getD 0 0 + (gs.map (fun grp => (grp.filter (fun s =>
            !((lookupGraph fg s).any
              (fun f => decide (f ∈ grp))))).length)).sum) := by
  intro gs
  induction gs with
  | nil =>
    intro st h5
    exact ⟨h5, by simp⟩
  | cons grp gs ih =>
    intro st h5
    rw [List.foldl_cons]
    obtain ⟨h1, h2⟩ := analyze_inner fg grp grp st h5
    obtain ⟨ih1, ih2⟩ := ih _ h1
    refine ⟨ih1, ?_⟩
    rw [ih2, h2, List.map_cons, List.sum_cons]
    omega

theorem filter_split {α : Type} (p q : α → Bool) (hpq : ∀ a, q a = !(p a)) :
    ∀ (l : List α), (l.filter p).length + (l.filter q).length = l.length := by
  intro l
  induction l with
  | nil => rfl
  | cons a l ih =>
    rw [List.filter_cons, List.filter_cons, hpq a]
    cases h : p a
    · rw [if_neg (show ¬(false = true) by simp),
        if_pos (show (!false) = true by simp)]
      simp only [List.length_cons]
      omega
    · rw [if_pos (show (true = true) from rfl),
        if_neg (show ¬((!true) = true) by simp)]
      simp only [List.length_cons]
      omega

theorem sat_unsat_total (fg : List (String × List String))
    (groups : List (List String)) :
    satCount groups fg + (groups.map (fun grp => (grp.filter (fun s =>
        !((lookupGraph fg s).any (fun f => decide (f ∈ grp))))).length)).sum =
      (groups.map (fun g => g.length)).sum := by
  unfold satCount
  induction groups with
  | nil => rfl
  | cons grp gs ih =>
    simp only [List.map_cons, List.sum_cons]
    have hs := filter_split
      (fun s => (lookupGraph fg s).any (fun f => decide (f ∈ grp)))
      (fun s => !((lookupGraph fg s).any (fun f => decide (f ∈ grp))))
      (fun a => rfl) grp
    omega

/-! ### Rounding bounds -/

theorem roundHalfEven_mem (q : ℚ) :
    roundHalfEven q = ⌊q⌋ ∨ roundHalfEven q = ⌊q⌋ + 1 := by
  unfold roundHalfEven
  by_cases h1 : q - ⌊q⌋ < 1/2
  · rw [if_pos h1]
    exact Or.inl rfl
  · rw [if_neg h1]
    by_cases h2 : 1/2 < q - ⌊q⌋
    · rw [if_pos h2]
      exact Or.inr rfl
    · rw [if_neg h2]
      by_cases h3 : ⌊q⌋ % 2 = 0
      · rw [if_pos h3]
        exact Or.inl rfl
      · rw [if_neg h3]
        exact Or.inr rfl

theorem roundHalfEven_nonneg {q : ℚ} (h : 0 ≤ q) : 0 ≤ roundHalfEven q := by
  have hf : 0 ≤ ⌊q⌋ := Int.floor_nonneg.mpr h
  rcases roundHalfEven_mem q with he | he <;> omega

theorem roundHalfEven_le {q : ℚ} {B : ℤ} (h : q ≤ B) :
    roundHalfEven q ≤ B := by
  by_cases h1 : q - ⌊q⌋ < 1/2
  · have : roundHalfEven q = ⌊q⌋ := by
      unfold roundHalfEven
      rw [if_pos h1]
    rw [this]
    calc ⌊q⌋ ≤ ⌊(B : ℚ)⌋ := Int.floor_le_floor h
      _ = B := Int.floor_intCast B
  · have hlt : (⌊q⌋ : ℚ) < q := by
      have hge : (1 : ℚ)/2 ≤ q - ⌊q⌋ := le_of_not_lt h1
      have : (0 : ℚ) < q - ⌊q⌋ := lt_of_lt_of_le (by norm_num) hge
      linarith
    have hfb : ⌊q⌋ < B := by
      have : (⌊q⌋ : ℚ) < (B : ℚ) := lt_of_lt_of_le hlt h
      exact_mod_cast this
    rcases roundHalfEven_mem q with he | he <;> omega

theorem pyRound2_nonneg {q : ℚ} (h : 0 ≤ q) : 0 ≤ pyRound2 q := by
  unfold pyRound2
  apply div_nonneg _ (by norm_num)
  have : (0 : ℤ) ≤ roundHalfEven (q * 100) :=
    roundHalfEven_nonneg (by positivity)
  exact_mod_cast this

theorem pyRound2_le_100 {q : ℚ} (h : q ≤ 100) : pyRound2 q ≤ 100 := by
  unfold pyRound2
  rw [div_le_iff₀ (by norm_num : (0 : ℚ) < 100)]
  have hle : roundHalfEven (q * 100) ≤ (10000 : ℤ) := by
    apply roundHalfEven_le
    push_cast
    linarith
  calc ((roundHalfEven (q * 100) : ℚ)) ≤ (10000 : ℚ) := by exact_mod_cast hle
    _ = 100 * 100 := by norm_num

/-- C8: the satisfaction rate lies in `[0, 100]`, equals the percentage of
students with at least one co-located friend rounded to two decimal places,
and equals `0` when the total number of students is `0`. -/
theorem claim_C8 (groups : List (List String))
    (fg : List (String × List String)) :
    0 ≤ (validate_groups groups fg).satisfaction_rate ∧
    (validate_groups groups fg).satisfaction_rate ≤ 100 ∧
    (validate_groups groups fg).satisfaction_rate =
      (if (validate_groups groups fg).total_students = 0 then 0
       else pyRound2 ((satCount groups fg : ℚ) /
         ((validate_groups groups fg).total_students : ℚ) * 100)) := by
  have htot : (validate_groups groups fg).total_students =
      (groups.map (fun g => g.length)).sum := rfl
  have hrate : (validate_groups groups fg).satisfaction_rate =
      if 0 < (groups.map (fun g => g.length)).sum then
        pyRound2 (((((groups.map (fun g => g.length)).sum : ℕ) : ℚ) -
            ((analyzeAll fg groups).hist.getD 0 0 : ℚ)) /
          (((groups.map (fun g => g.length)).sum : ℕ) : ℚ) * 100)
      else 0 := rfl
  obtain ⟨hh5, hdist⟩ := analyze_outer fg groups ⟨[0, 0, 0, 0, 0], [], 0⟩ rfl
  have hdist0 : (analyzeAll fg groups).hist.getD 0 0 =
      (groups.map (fun grp => (grp.filter (fun s =>
        !((lookupGraph fg s).any (fun f => decide (f ∈ grp))))).length)).sum
      := by
    have h0 : (VState.mk [0, 0, 0, 0, 0] [] 0).hist.getD 0 0 = 0 := rfl
    rw [show (analyzeAll fg groups) = groups.foldl
        (fun st grp => grp.foldl (analyzeStudent fg grp) st)
        ⟨[0, 0, 0, 0, 0], [], 0⟩ from rfl, hdist, h0]
    omega
  have hsplit := sat_unsat_total fg groups
  by_cases hz : (groups.map (fun g => g.length)).sum = 0
  · have hr0 : (validate_groups groups fg).satisfaction_rate = 0 := by
      rw [hrate, if_neg (by omega)]
    rw [hr0, htot, if_pos hz]
    norm_num
  · have hpos : 0 < (groups.map (fun g => g.length)).sum := Nat.pos_of_ne_zero hz
    have hposQ : (0 : ℚ) < (((groups.map (fun g => g.length)).sum : ℕ) : ℚ) := by
      exact_mod_cast hpos
    have hcast : ((((groups.map (fun g => g.length)).sum : ℕ) : ℚ) -
        ((analyzeAll fg groups).hist.getD 0 0 : ℚ)) = (satCount groups fg : ℚ)
        := by
      rw [hdist0]
      have hq : (satCount groups fg : ℚ) +
          (((groups.map (fun grp => (grp.filter (fun s =>
            !((lookupGraph fg s).any
              (fun f => decide (f ∈ grp))))).length)).sum : ℕ) : ℚ) =
          (((groups.map (fun g => g.length)).sum : ℕ) : ℚ) := by
        exact_mod_cast hsplit
      linarith
    have hr : (validate_groups groups fg).satisfaction_rate =
        pyRound2 ((satCount groups fg : ℚ) /
          (((groups.map (fun g => g.length)).sum : ℕ) : ℚ) * 100) := by
      rw [hrate, if_pos hpos, hcast]
    have hle : satCount groups fg ≤ (groups.map (fun g => g.length)).sum := by
      omega
    have hx0 : (0 : ℚ) ≤ (satCount groups fg : ℚ) /
        (((groups.map (fun g => g.length)).sum : ℕ) : ℚ) * 100 := by
      positivity
    have hx100 : (satCount groups fg : ℚ) /
        (((groups.map (fun g => g.length)).sum : ℕ) : ℚ) * 100 ≤ 100 := by
      have hdle : (satCount groups fg : ℚ) /
          (((groups.map (fun g => g.length)).sum : ℕ) : ℚ) ≤ 1 := by
        rw [div_le_one hposQ]
        exact_mod_cast hle
      linarith
    refine ⟨?_, ?_, ?_⟩
    · rw [hr]
      exact pyRound2_nonneg hx0
    · rw [hr]
      exact pyRound2_le_100 hx100
    · rw [hr, htot, if_neg hz]

/-! ### Read-only access of `validate_groups` (frame property) -/

/-- The Python object store visible to `validate_groups`: the groups list
and the friendship graph. -/
structure PyStore where
  groups : List (List String)
  fg : List (String × List String)

/-- `for student in group` body with the store threaded explicitly: every
statement of the source only reads `groups`/`friendship_graph`, so the
store component passes through each step. -/
def analyzeStudentSt (grp : List String) (p : VState × PyStore)
    (student : String) : VState × PyStore :=
  (analyzeStudent p.2.fg grp p.1 student, p.2)

/-- `validate_groups` with the store threaded through the analysis loop and
returned alongside the report. -/
def validate_groups_st (store : PyStore) : ValidationReport × PyStore :=
  ((store.groups.foldl (fun (p : VState × PyStore) grp =>
      grp.foldl (analyzeStudentSt grp) p) (⟨[0, 0, 0, 0, 0], [], 0⟩, store)
    ) |> fun res => (assembleReport res.2.groups res.1, res.2))

theorem inner_store_const (grp : List String) :
    ∀ (members : List String) (p : VState × PyStore),
      (members.foldl (analyzeStudentSt grp) p).2 = p.2 ∧
      (members.foldl (analyzeStudentSt grp) p).1 =
        members.foldl (analyzeStudent p.2.fg grp) p.1 := by
  intro members
  induction members with
  | nil =>
    intro p
    exact ⟨rfl, rfl⟩
  | cons s members ih =>
    intro p
    rw [List.foldl_cons, List.foldl_cons]
    obtain ⟨h2, h1⟩ := ih (analyzeStudentSt grp p s)
    exact ⟨h2, h1⟩

theorem outer_store_const :
    ∀ (gs : List (List String)) (p : VState × PyStore),
      (gs.foldl (fun (p : VState × PyStore) grp =>
        grp.foldl (analyzeStudentSt grp) p) p).2 = p.2 ∧
      (gs.foldl (fun (p : VState × PyStore) grp =>
        grp.foldl (analyzeStudentSt grp) p) p).1 =
        gs.foldl (fun st grp => grp.foldl (analyzeStudent p.2.fg grp) st)
          p.1 := by
  intro gs
  induction gs with
  | nil =>
    intro p
    exact ⟨rfl, rfl⟩
  | cons grp gs ih =>
    intro p
    rw [List.foldl_cons, List.foldl_cons]
    obtain ⟨hi2, hi1⟩ := inner_store_const grp grp p
    obtain ⟨ho2, ho1⟩ := ih (grp.foldl (analyzeStudentSt grp) p)
    refine ⟨hi2 ▸ ho2, ?_⟩
    rw [ho1, hi1, hi2]

/-- C9: `validate_groups` is read-only over its inputs: threading the
(groups, friendship graph) store through the embedded statement sequence
returns it unchanged, and the report is the pure function of the inputs. -/
theorem claim_C9 (groups : List (List String))
    (fg : List (String × List String)) :
    (validate_groups_st ⟨groups, fg⟩).2 = ⟨groups, fg⟩ ∧
    (validate_groups_st ⟨groups, fg⟩).1 = validate_groups groups fg := by
  obtain ⟨h2, h1⟩ := outer_store_const groups
    (⟨[0, 0, 0, 0, 0], [], 0⟩, ⟨groups, fg⟩)
  constructor
  · exact h2
  · show assembleReport
      ((groups.foldl (fun (p : VState × PyStore) grp =>
        grp.foldl (analyzeStudentSt grp) p)
          (⟨[0, 0, 0, 0, 0], [], 0⟩, ⟨groups, fg⟩)).2).groups
      ((groups.foldl (fun (p : VState × PyStore) grp =>
        grp.foldl (analyzeStudentSt grp) p)
          (⟨[0, 0, 0, 0, 0], [], 0⟩, ⟨groups, fg⟩)).1) =
      validate_groups groups fg
    rw [h2, h1]
    rfl

/-! ## Allocator (`allocate_groups`) and balancer (`balance_groups`) -/

/-- Insert after every element whose key is `≤` the new key: the building
block of a stable sort, matching Python's stable `list.sort(key=...)`. -/
def insertLE {α : Type} (key : α → Nat) (x : α) : List α → List α
  | [] => [x]
  | y :: ys => if key y ≤ key x then y :: insertLE key x ys else x :: y :: ys

/-- Python's stable sort by a `Nat` key (insertion sort; stable sorts by
the same key agree, so this is extensionally `list.sort(key=...)`). -/
def stableSortBy {α : Type} (key : α → Nat) (l : List α) : List α :=
  l.foldl (fun acc x => insertLE key x acc) []

/-- `target_size = total_students // num_groups`. -/
def targetSize (total n : Nat) : Nat := total / n

/-- `max_size = target_size + (2 if total_students % num_groups > 0 else 0)`. -/
def maxSize (total n : Nat) : Nat :=
  total / n + (if total % n > 0 then 2 else 0)

/-- The `(student, num_friends)` priority list, sorted ascending by friend
count (Python's sort is stable). -/
def studentPriority (students : List String)
    (fg : List (String × List String)) : List (String × Nat) :=
  stableSortBy (fun p => p.2)
    (students.map (fun s => (s, (lookupGraph fg s).length)))

/-- First-pass friend scan: index of the first group below the capacity
ceiling that already contains one of the student's friends. -/
def findFriendGroup (friends : List String) (max_size : Nat) :
    List (List String) → Option Nat
  | [] => none
  | g :: gs =>
    if g.length < max_size ∧ friends.any (fun f => decide (f ∈ g)) then some 0
    else (findFriendGroup friends max_size gs).map (fun i => i + 1)

/-- `valid_groups`: the `(index, size)` pairs of groups below the ceiling,
in index order. -/
def validGroupsAux (max_size : Nat) :
    List (List String) → Nat → List (Nat × Nat)
  | [], _ => []
  | g :: gs, i =>
    if g.length < max_size then
      (i, g.length) :: validGroupsAux max_size gs (i + 1)
    else validGroupsAux max_size gs (i + 1)

/-- Sort `valid_groups` by size (stable) and take the first index: the
smallest group below the ceiling, lowest index on ties. -/
def pickSmallest (groups : List (List String)) (max_size : Nat) :
    Option Nat :=
  ((stableSortBy (fun p => p.2) (validGroupsAux max_size groups 0)).head?).map
    (fun p => p.1)

/-- One iteration of the first pass of `allocate_groups` for one
`(student, num_friends)` entry. -/
def firstPassStep (fg : List (String × List String)) (max_size : Nat)
    (st : List (List String) × List String) (p : String × Nat) :
    List (List String) × List String :=
  if p.1 ∈ st.2 then st
  else
    match findFriendGroup (lookupGraph fg p.1) max_size st.1 with
    | some i => (st.1.set i (st.1.getD i [] ++ [p.1]), st.2 ++ [p.1])
    | none =>
      match pickSmallest st.1 max_size with
      | some i => (st.1.set i (st.1.getD i [] ++ [p.1]), st.2 ++ [p.1])
      | none => st

/-- The first pass of `allocate_groups`: place each student, in priority
order, with a friend if possible and otherwise in the smallest group below
the ceiling.  Returns `(groups, allocated)`. -/
def firstPass (fg : List (String × List String)) (max_size : Nat)
    (priority : List (String × Nat)) (init : List (List String)) :
    List (List String) × List String :=
  priority.foldl (firstPassStep fg max_size) (init, [])

/-- `min(range(num_groups), key=lambda i: len(groups[i]))`: first index of
minimal size (`none` for zero groups, where Python's `min` raises). -/
def argminIdx (sizes : List Nat) : Option Nat :=
  match pyMin sizes with
  | some m => some (sizes.indexOf m)
  | none => none

/-- One iteration of the second (fallback) pass of `allocate_groups`. -/
def secondPassStep (st : List (List String) × List String)
    (student : String) : List (List String) × List String :=
  if student ∈ st.2 then st
  else
    match argminIdx (st.1.map (fun g => g.length)) with
    | some i => (st.1.set i (st.1.getD i [] ++ [student]), st.2 ++ [student])
    | none => st

/-- The second pass of `allocate_groups`: any student still unallocated is
placed in the globally smallest group. -/
def secondPass (students : List String)
    (st : List (List String) × List String) :
    List (List String) × List String :=
  students.foldl secondPassStep st

/-- Move a student out of group `li` (whose updated contents are `removed`)
and append them to group `si`, reading group `si` after the removal as the
Python statements do. -/
def doMove (groups : List (List String)) (li si : Nat)
    (removed : List String) (student : String) : List (List String) :=
  (groups.set li removed).set si
    (((groups.set li removed).getD si []) ++ [student])

/-- The move part of one `balance_groups` iteration: move the first student
of the largest group who either has no friends there or has a friend in the
smallest group; failing that, pop the largest group's last member. -/
def balanceMove (groups : List (List String))
    (fg : List (String × List String)) (li si : Nat) :
    List (List String) :=
  match (groups.getD li []).find? (fun student =>
      !((lookupGraph fg student).any
        (fun f => decide (f ∈ groups.getD li []))) ||
      ((lookupGraph fg student).any
        (fun f => decide (f ∈ groups.getD si [])))) with
  | some student =>
    doMove groups li si ((groups.getD li []).erase student) student
  | none =>
    match (groups.getD li []).getLast? with
    | some student =>
      doMove groups li si ((groups.getD li []).dropLast) student
    | none => groups
  -- Python would raise on `max([])`/`min([])` at the loop head before ever
  -- reaching this point with zero groups.

/-- One full (non-converged) iteration of the `balance_groups` loop:
identify the first largest and first smallest group and move one student. -/
def balanceBody (groups : List (List String))
    (fg : List (String × List String)) : List (List String) :=
  match pyMax (groups.map (fun g => g.length)),
      pyMin (groups.map (fun g => g.length)) with
  | some mx, some mn =>
    balanceMove groups fg ((groups.map (fun g => g.length)).indexOf mx)
      ((groups.map (fun g => g.length)).indexOf mn)
  | _, _ => groups

/-- The `while iteration < max_iterations` loop of `balance_groups`,
expressed with the iteration budget as structural fuel: test convergence
(`max - min <= 1`), stop, else perform the body and continue. -/
def balanceLoop (fg : List (String × List String)) :
    Nat → List (List String) → List (List String)
  | 0, groups => groups
  | fuel + 1, groups =>
    match pyMax (groups.map (fun g => g.length)),
        pyMin (groups.map (fun g => g.length)) with
    | some mx, some mn =>
      if mx - mn ≤ 1 then groups
      else balanceLoop fg fuel (balanceBody groups fg)
    | _, _ => groups

/-- `balance_groups` from `class_allocation.py` (`max_iterations = 50`;
`target_size` is accepted but never read, exactly as in the source). -/
def balance_groups (groups : List (List String))
    (fg : List (String × List String)) (target_size : Nat) :
    List (List String) :=
  balanceLoop fg 50 groups

/-- `allocate_groups` from `class_allocation.py`: first pass, second-pass
fallback, then the balancing pass. -/
def allocate_groups (students : List String)
    (fg : List (String × List String)) (num_groups : Nat) :
    List (List String) :=
  balance_groups
    (secondPass students
      (firstPass fg (maxSize students.length num_groups)
        (studentPriority students fg)
        (List.replicate num_groups []))).1
    fg (targetSize students.length num_groups)

/-- `max(sizes) - min(sizes)` of a partition (0 for no groups). -/
def sizeGap (groups : List (List String)) : Nat :=
  match pyMax (groups.map (fun g => g.length)),
      pyMin (groups.map (fun g => g.length)) with
  | some mx, some mn => mx - mn
  | _, _ => 0

/-! ### Sorting and multiset accounting lemmas -/

theorem insertLE_perm {α : Type} (key : α → Nat) (x : α) (l : List α) :
    List.Perm (insertLE key x l) (x :: l) := by
  induction l with
  | nil => exact List.Perm.refl _
  | cons y ys ih =>
    rw [insertLE]
    by_cases h : key y ≤ key x
    · rw [if_pos h]
      exact (ih.cons y).trans (List.Perm.swap x y ys)
    · rw [if_neg h]

theorem foldl_insertLE_perm {α : Type} (key : α → Nat) :
    ∀ (l acc : List α),
      List.Perm (l.foldl (fun acc x => insertLE key x acc) acc) (acc ++ l) := by
  intro l
  induction l with
  | nil =>
    intro acc
    simp
  | cons x xs ih =>
    intro acc
    rw [List.foldl_cons]
    refine ((ih (insertLE key x acc)).trans ?_)
    have h1 : List.Perm (insertLE key x acc ++ xs) ((x :: acc) ++ xs) :=
      (insertLE_perm key x acc).append_right xs
    refine h1.trans ?_
    rw [List.cons_append]
    exact (List.perm_middle).symm

theorem stableSortBy_perm {α : Type} (key : α → Nat) (l : List α) :
    List.Perm (stableSortBy key l) l := by
  have := foldl_insertLE_perm key l []
  simpa [stableSortBy] using this

/-- Multiset of all members of a partition. -/
def joinMS (g : List (List String)) : Multiset String :=
  (g.map (fun l => Multiset.ofList l)).sum

theorem joinMS_nil : joinMS [] = 0 := rfl

theorem joinMS_cons (a : List String) (gs : List (List String)) :
    joinMS (a :: gs) = (↑a : Multiset String) + joinMS gs := by
  unfold joinMS
  rw [List.map_cons, List.sum_cons]

theorem joinMS_eq_flatten (g : List (List String)) :
    joinMS g = (↑g.flatten : Multiset String) := by
  induction g with
  | nil => rfl
  | cons a gs ih =>
    rw [joinMS_cons, ih, List.flatten_cons, ← Multiset.coe_add]

theorem joinMS_card (g : List (List String)) :
    Multiset.card (joinMS g) = (g.map (fun x => x.length)).sum := by
  induction g with
  | nil => rfl
  | cons a gs ih =>
    rw [joinMS_cons, List.map_cons, List.sum_cons, Multiset.card_add,
      Multiset.coe_card, ih]

theorem joinMS_set (g : List (List String)) (i : Nat) (x : List String)
    (h : i < g.length) :
    joinMS (g.set i x) + (↑(g.getD i []) : Multiset String) =
      joinMS g + ↑x := by
  induction g generalizing i with
  | nil => simp at h
  | cons a gs ih =>
    cases i with
    | zero =>
      show joinMS (x :: gs) + ↑a = joinMS (a :: gs) + ↑x
      rw [joinMS_cons, joinMS_cons, Multiset.ext]
      intro b
      simp only [Multiset.count_add]
      omega
    | succ i =>
      have h2 : i < gs.length := by simpa using h
      show joinMS (a :: gs.set i x) + ↑(gs.getD i []) = joinMS (a :: gs) + ↑x
      rw [joinMS_cons, joinMS_cons, add_assoc, ih i h2, add_assoc]

theorem pyMax_mem : ∀ {l : List Nat} {m : Nat}, pyMax l = some m → m ∈ l := by
  intro l
  induction l with
  | nil =>
    intro m h
    exact absurd h (by simp [pyMax])
  | cons a t ih =>
    intro m h
    rw [pyMax] at h
    cases ht : pyMax t with
    | none =>
      rw [ht] at h
      replace h : some a = some m := h
      exact (Option.some.inj h) ▸ List.mem_cons_self _ _
    | some b =>
      rw [ht] at h
      replace h : some (max a b) = some m := h
      replace h := Option.some.inj h
      rcases max_choice a b with hc | hc
      · rw [hc] at h
        exact h ▸ List.mem_cons_self _ _
      · rw [hc] at h
        exact List.mem_cons_of_mem _ (h ▸ ih ht)

theorem pyMin_mem : ∀ {l : List Nat} {m : Nat}, pyMin l = some m → m ∈ l := by
  intro l
  induction l with
  | nil =>
    intro m h
    exact absurd h (by simp [pyMin])
  | cons a t ih =>
    intro m h
    rw [pyMin] at h
    cases ht : pyMin t with
    | none =>
      rw [ht] at h
      replace h : some a = some m := h
      exact (Option.some.inj h) ▸ List.mem_cons_self _ _
    | some b =>
      rw [ht] at h
      replace h : some (min a b) = some m := h
      replace h := Option.some.inj h
      rcases min_choice a b with hc | hc
      · rw [hc] at h
        exact h ▸ List.mem_cons_self _ _
      · rw [hc] at h
        exact List.mem_cons_of_mem _ (h ▸ ih ht)

theorem findFriendGroup_lt (friends : List String) (m : Nat) :
    ∀ (gs : List (List String)) (i : Nat),
      findFriendGroup friends m gs = some i → i < gs.length := by
  intro gs
  induction gs with
  | nil =>
    intro i h
    exact absurd h (by simp [findFriendGroup])
  | cons g gs ih =>
    intro i h
    rw [findFriendGroup] at h
    by_cases hc : g.length < m ∧ friends.any (fun f => decide (f ∈ g))
    · rw [if_pos hc] at h
      have : (0 : Nat) = i := Option.some.inj h
      rw [← this]
      simp
    · rw [if_neg hc] at h
      cases hf : findFriendGroup friends m gs with
      | none =>
        rw [hf] at h
        simp at h
      | some j =>
        rw [hf] at h
        simp only [Option.map_some'] at h
        have hj := ih j hf
        have : j + 1 = i := Option.some.inj h
        rw [← this, List.length_cons]
        omega

theorem validGroupsAux_mem (m : Nat) :
    ∀ (gs : List (List String)) (i0 : Nat) (p : Nat × Nat),
      p ∈ validGroupsAux m gs i0 → ∃ k, k < gs.length ∧ p.1 = i0 + k := by
  intro gs
  induction gs with
  | nil =>
    intro i0 p hp
    simp [validGroupsAux] at hp
  | cons g gs ih =>
    intro i0 p hp
    rw [validGroupsAux] at hp
    by_cases hc : g.length < m
    · rw [if_pos hc] at hp
      rcases List.mem_cons.mp hp with h | h
      · exact ⟨0, by simp, by rw [h]; simp⟩
      · obtain ⟨k, hk, hpk⟩ := ih (i0 + 1) p h
        exact ⟨k + 1, by simp [List.length_cons]; omega, by omega⟩
    · rw [if_neg hc] at hp
      obtain ⟨k, hk, hpk⟩ := ih (i0 + 1) p hp
      exact ⟨k + 1, by simp [List.length_cons]; omega, by omega⟩

theorem validGroupsAux_ne_nil (m : Nat) :
    ∀ (gs : List (List String)) (i0 j : Nat), j < gs.length →
      (gs.getD j []).length < m → validGroupsAux m gs i0 ≠ [] := by
  intro gs
  induction gs with
  | nil =>
    intro i0 j hj
    simp at hj
  | cons g gs ih =>
    intro i0 j hj hlt
    rw [validGroupsAux]
    cases j with
    | zero =>
      have hg : (g :: gs).getD 0 [] = g := rfl
      rw [hg] at hlt
      rw [if_pos hlt]
      simp
    | succ j =>
      by_cases hc : g.length < m
      · rw [if_pos hc]
        simp
      · rw [if_neg hc]
        have hj2 : j < gs.length := by
          rw [List.length_cons] at hj
          omega
        have hlt2 : (gs.getD j []).length < m := hlt
        exact ih (i0 + 1) j hj2 hlt2

theorem pickSmallest_isSome (groups : List (List String)) (m j : Nat)
    (hj : j < groups.length) (hlt : (groups.getD j []).length < m) :
    (pickSmallest groups m).isSome = true := by
  unfold pickSmallest
  have hne := validGroupsAux_ne_nil m groups 0 j hj hlt
  cases hs : stableSortBy (fun p => p.2) (validGroupsAux m groups 0) with
  | nil =>
    exfalso
    have hp := stableSortBy_perm (fun p => p.2) (validGroupsAux m groups 0)
    rw [hs] at hp
    have : validGroupsAux m groups 0 = [] := by
      have hl := hp.length_eq
      simpa using (List.length_eq_zero.mp hl.symm)
    exact hne this
  | cons p rest => rfl

theorem pickSmallest_lt (groups : List (List String)) (m i : Nat)
    (h : pickSmallest groups m = some i) : i < groups.length := by
  unfold pickSmallest at h
  cases hs : stableSortBy (fun p => p.2) (validGroupsAux m groups 0) with
  | nil =>
    rw [hs] at h
    simp at h
  | cons p rest =>
    rw [hs] at h
    simp only [List.head?_cons, Option.map_some'] at h
    have hpmem : p ∈ validGroupsAux m groups 0 := by
      have hperm := stableSortBy_perm (fun q => q.2) (validGroupsAux m groups 0)
      rw [hs] at hperm
      exact hperm.mem_iff.mp (List.mem_cons_self _ _)
    obtain ⟨k, hk, hpk⟩ := validGroupsAux_mem m groups 0 p hpmem
    have : p.1 = i := Option.some.inj h
    omega

theorem total_le_capacity (total n : Nat) (hn : 1 ≤ n) :
    total ≤ n * maxSize total n := by
  unfold maxSize
  by_cases hr : total % n > 0
  · rw [if_pos hr]
    have hdm := Nat.div_add_mod total n
    have hmod : total % n < n := Nat.mod_lt total (by omega)
    calc total = n * (total / n) + total % n := hdm.symm
      _ ≤ n * (total / n) + 2 * n := by omega
      _ = n * (total / n + 2) := by ring
  · rw [if_neg hr]
    have hdm := Nat.div_add_mod total n
    have hmod : total % n = 0 := by omega
    have : n * (total / n + 0) = n * (total / n) := by ring
    omega

theorem exists_small_group (g : List (List String)) (m : Nat)
    (h : (g.map (fun x => x.length)).sum < g.length * m) :
    ∃ j, j < g.length ∧ (g.getD j []).length < m := by
  induction g with
  | nil => simp at h
  | cons a gs ih =>
    by_cases ha : a.length < m
    · exact ⟨0, by simp, ha⟩
    · rw [List.map_cons, List.sum_cons, List.length_cons] at h
      have h2 : (gs.map (fun x => x.length)).sum < gs.length * m := by
        have he : (gs.length + 1) * m = gs.length * m + m := by ring
        omega
      obtain ⟨j, hj, hlt⟩ := ih h2
      refine ⟨j + 1, by simp [List.length_cons]; omega, ?_⟩
      exact hlt

theorem joinMS_append_one (groups : List (List String)) (i : Nat)
    (s : String) (h : i < groups.length) :
    joinMS (groups.set i (groups.getD i [] ++ [s])) = joinMS groups + {s} := by
  have hset := joinMS_set groups i (groups.getD i [] ++ [s]) h
  rw [Multiset.ext]
  intro b
  have c0 := congrArg (Multiset.count b) hset
  simp only [Multiset.count_add, Multiset.coe_count, List.count_append]
    at c0 ⊢
  have hsing : Multiset.count b ({s} : Multiset String) = List.count b [s] :=
    by rw [← Multiset.coe_singleton, Multiset.coe_count]
  rw [hsing]
  omega

/-! ### First-pass completeness and accounting -/

theorem firstPassAux (fg : List (String × List String)) (m n total : Nat)
    (hcap : total ≤ n * m) :
    ∀ (L : List (String × Nat)) (groups : List (List String))
      (alloc : List String),
      groups.length = n →
      joinMS groups = (↑alloc : Multiset String) →
      alloc.length + L.length ≤ total →
      (L.map (fun p => p.1)).Nodup →
      (∀ p ∈ L, p.1 ∉ alloc) →
      ((L.foldl (firstPassStep fg m) (groups, alloc)).1.length = n ∧
       joinMS (L.foldl (firstPassStep fg m) (groups, alloc)).1 =
         (↑(L.foldl (firstPassStep fg m) (groups, alloc)).2 :
           Multiset String) ∧
       (∀ p ∈ L, p.1 ∈ (L.foldl (firstPassStep fg m) (groups, alloc)).2) ∧
       (∀ x ∈ alloc, x ∈ (L.foldl (firstPassStep fg m) (groups, alloc)).2) ∧
       (L.foldl (firstPassStep fg m) (groups, alloc)).2.length =
         alloc.length + L.length) := by
  intro L
  induction L with
  | nil =>
    intro groups alloc hg hj hlen hnd hdisj
    refine ⟨hg, hj, by simp, fun x hx => hx, by simp⟩
  | cons p L ih =>
    intro groups alloc hg hj hlen hnd hdisj
    rw [List.foldl_cons]
    have hnotin : p.1 ∉ alloc := hdisj p (List.mem_cons_self _ _)
    have hstep : ∃ i, i < groups.length ∧
        firstPassStep fg m (groups, alloc) p =
          (groups.set i (groups.getD i [] ++ [p.1]), alloc ++ [p.1]) := by
      unfold firstPassStep
      rw [if_neg hnotin]
      cases hf : findFriendGroup (lookupGraph fg p.1) m groups with
      | some i => exact ⟨i, findFriendGroup_lt _ _ groups i hf, rfl⟩
      | none =>
        have hcard : (groups.map (fun x => x.length)).sum = alloc.length := by
          rw [← joinMS_card, hj, Multiset.coe_card]
        have halt : alloc.length < total := by
          rw [List.length_cons] at hlen
          omega
        have hlt : (groups.map (fun x => x.length)).sum <
            groups.length * m := by
          rw [hcard, hg]
          omega
        obtain ⟨j, hjlt, hjsz⟩ := exists_small_group groups m hlt
        have hsome := pickSmallest_isSome groups m j hjlt hjsz
        cases hp : pickSmallest groups m with
        | none =>
          rw [hp] at hsome
          simp at hsome
        | some i => exact ⟨i, pickSmallest_lt groups m i hp, rfl⟩
    obtain ⟨i, hilt, heq⟩ := hstep
    rw [heq]
    have hg2 : (groups.set i (groups.getD i [] ++ [p.1])).length = n := by
      rw [List.length_set]
      exact hg
    have hj2 : joinMS (groups.set i (groups.getD i [] ++ [p.1])) =
        (↑(alloc ++ [p.1]) : Multiset String) := by
      rw [joinMS_append_one groups i p.1 hilt, hj, Multiset.ext]
      intro b
      simp only [Multiset.count_add, Multiset.coe_count, List.count_append]
      have hsing : Multiset.count b ({p.1} : Multiset String) =
          List.count b [p.1] := by
        rw [← Multiset.coe_singleton, Multiset.coe_count]
      rw [hsing]
    have hlen2 : (alloc ++ [p.1]).length + L.length ≤ total := by
      rw [List.length_append, List.length_singleton]
      rw [List.length_cons] at hlen
      omega
    have hnd2 : (L.map (fun p => p.1)).Nodup := by
      rw [List.map_cons] at hnd
      exact hnd.of_cons
    have hhead : p.1 ∉ L.map (fun p => p.1) := by
      rw [List.map_cons] at hnd
      exact (List.nodup_cons.mp hnd).1
    have hdisj2 : ∀ q ∈ L, q.1 ∉ alloc ++ [p.1] := by
      intro q hq hmem
      rcases List.mem_append.mp hmem with h | h
      · exact hdisj q (List.mem_cons_of_mem _ hq) h
      · rw [List.mem_singleton] at h
        exact hhead (h ▸ List.mem_map_of_mem (fun p => p.1) hq)
    obtain ⟨c1, c2, c3, c4, c5⟩ := ih
      (groups.set i (groups.getD i [] ++ [p.1])) (alloc ++ [p.1])
      hg2 hj2 hlen2 hnd2 hdisj2
    refine ⟨c1, c2, ?_, ?_, ?_⟩
    · intro q hq
      rcases List.mem_cons.mp hq with h | h
      · rw [h]
        exact c4 p.1 (List.mem_append_right _ (List.mem_singleton_self _))
      · exact c3 q h
    · intro x hx
      exact c4 x (List.mem_append_left _ hx)
    · rw [c5, List.length_append, List.length_singleton,
        List.length_cons]
      omega

theorem studentPriority_map_fst_perm (students : List String)
    (fg : List (String × List String)) :
    List.Perm ((studentPriority students fg).map (fun p => p.1)) students
    := by
  unfold studentPriority
  have hp := stableSortBy_perm (fun p : String × Nat => p.2)
    (students.map (fun s => (s, (lookupGraph fg s).length)))
  have hm := hp.map (fun p : String × Nat => p.1)
  have he : (students.map
      (fun s => (s, (lookupGraph fg s).length))).map
        (fun p : String × Nat => p.1) = students := by
    rw [List.map_map]
    exact List.map_id students
  rw [he] at hm
  exact hm

theorem firstPass_complete (fg : List (String × List String))
    (students : List String) (n : Nat)
    (hnodup : students.Nodup) (hn : 1 ≤ n) :
    ((firstPass fg (maxSize students.length n)
        (studentPriority students fg) (List.replicate n [])).1.length = n ∧
     joinMS (firstPass fg (maxSize students.length n)
        (studentPriority students fg) (List.replicate n [])).1 =
       (↑(firstPass fg (maxSize students.length n)
        (studentPriority students fg) (List.replicate n [])).2 :
         Multiset String) ∧
     (∀ s ∈ students, s ∈ (firstPass fg (maxSize students.length n)
        (studentPriority students fg) (List.replicate n [])).2) ∧
     List.Perm (firstPass fg (maxSize students.length n)
        (studentPriority students fg) (List.replicate n [])).2 students)
    := by
  have hfp : firstPass fg (maxSize students.length n)
      (studentPriority students fg) (List.replicate n []) =
      (studentPriority students fg).foldl
        (firstPassStep fg (maxSize students.length n))
        (List.replicate n [], []) := rfl
  rw [hfp]
  have hperm := studentPriority_map_fst_perm students fg
  have hndp : ((studentPriority students fg).map (fun p => p.1)).Nodup :=
    hperm.nodup_iff.mpr hnodup
  have hlenp : (studentPriority students fg).length = students.length := by
    have := hperm.length_eq
    simpa using this
  have hcap := total_le_capacity students.length n hn
  obtain ⟨c1, c2, c3, c4, c5⟩ := firstPassAux fg
    (maxSize students.length n) n students.length hcap
    (studentPriority students fg) (List.replicate n []) []
    (by simp)
    (by simp [joinMS])
    (by simp [hlenp])
    hndp
    (by simp)
  have hmem : ∀ s ∈ students,
      s ∈ ((studentPriority students fg).foldl
        (firstPassStep fg (maxSize students.length n))
        (List.replicate n [], [])).2 := by
    intro s hs
    have : s ∈ (studentPriority students fg).map (fun p => p.1) :=
      hperm.mem_iff.mpr hs
    obtain ⟨q, hq, hqs⟩ := List.mem_map.mp this
    exact hqs ▸ c3 q hq
  refine ⟨c1, c2, hmem, ?_⟩
  · have hsp := List.subperm_of_subset hnodup hmem
    have hlen : ((studentPriority students fg).foldl
        (firstPassStep fg (maxSize students.length n))
        (List.replicate n [], [])).2.length ≤ students.length := by
      rw [c5, hlenp]
      simp
    exact (hsp.perm_of_length_le hlen).symm

theorem secondPass_id (students : List String) :
    ∀ (st : List (List String) × List String),
      (∀ s ∈ students, s ∈ st.2) → secondPass students st = st := by
  induction students with
  | nil =>
    intro st h
    rfl
  | cons s ss ih =>
    intro st h
    show (s :: ss).foldl secondPassStep st = st
    rw [List.foldl_cons]
    have hs : secondPassStep st s = st := by
      unfold secondPassStep
      rw [if_pos (h s (List.mem_cons_self _ _))]
    rw [hs]
    exact ih st (fun x hx => h x (List.mem_cons_of_mem _ hx))

/-! ### Balancer accounting -/

theorem count_singletonMS (b s : String) :
    Multiset.count b ({s} : Multiset String) = List.count b [s] := by
  rw [← Multiset.coe_singleton, Multiset.coe_count]

theorem getD_set_self (l : List (List String)) (i : Nat) (x : List String)
    (h : i < l.length) : (l.set i x).getD i [] = x := by
  simp [List.getD_eq_getElem?_getD, List.getElem?_set_self h]

theorem getD_set_ne (l : List (List String)) (i j : Nat) (x : List String)
    (h : i ≠ j) : (l.set i x).getD j [] = l.getD j [] := by
  simp [List.getD_eq_getElem?_getD, List.getElem?_set_ne h]

theorem joinMS_doMove (groups : List (List String)) (li si : Nat)
    (removed : List String) (student : String)
    (hli : li < groups.length) (hsi : si < groups.length)
    (hsplit : (↑removed : Multiset String) + {student} =
      ↑(groups.getD li [])) :
    joinMS (doMove groups li si removed student) = joinMS groups := by
  unfold doMove
  by_cases hij : li = si
  · subst hij
    rw [getD_set_self groups li removed hli, List.set_set]
    have hset := joinMS_set groups li (removed ++ [student]) hli
    rw [Multiset.ext]
    intro b
    have c0 := congrArg (Multiset.count b) hset
    have c1 := congrArg (Multiset.count b) hsplit
    simp only [Multiset.count_add, Multiset.coe_count, List.count_append,
      count_singletonMS] at c0 c1 ⊢
    omega
  · rw [getD_set_ne groups li si removed hij]
    have hset1 := joinMS_set groups li removed hli
    have hsi2 : si < (groups.set li removed).length := by
      rw [List.length_set]
      exact hsi
    have hset2 := joinMS_set (groups.set li removed) si
      (groups.getD si [] ++ [student]) hsi2
    rw [getD_set_ne groups li si removed hij] at hset2
    rw [Multiset.ext]
    intro b
    have c0 := congrArg (Multiset.count b) hset1
    have c2 := congrArg (Multiset.count b) hset2
    have c1 := congrArg (Multiset.count b) hsplit
    simp only [Multiset.count_add, Multiset.coe_count, List.count_append,
      count_singletonMS] at c0 c1 c2 ⊢
    omega

theorem joinMS_balanceMove (groups : List (List String))
    (fg : List (String × List String)) (li si : Nat)
    (hli : li < groups.length) (hsi : si < groups.length) :
    joinMS (balanceMove groups fg li si) = joinMS groups := by
  unfold balanceMove
  cases hf : (groups.getD li []).find? (fun student =>
      !((lookupGraph fg student).any
        (fun f => decide (f ∈ groups.getD li []))) ||
      ((lookupGraph fg student).any
        (fun f => decide (f ∈ groups.getD si [])))) with
  | some student =>
    have hmem : student ∈ groups.getD li [] := List.mem_of_find?_eq_some hf
    have hpermc := List.perm_cons_erase hmem
    have hsplit : (↑((groups.getD li []).erase student) : Multiset String) +
        {student} = ↑(groups.getD li []) := by
      rw [Multiset.ext]
      intro b
      have hc : List.count b (groups.getD li []) =
          List.count b (student :: (groups.getD li []).erase student) :=
        hpermc.count_eq b
      simp only [Multiset.count_add, Multiset.coe_count, count_singletonMS]
      rw [hc, List.count_cons, List.count_cons, List.count_nil]
      omega
    exact joinMS_doMove groups li si _ student hli hsi hsplit
  | none =>
    cases hgl : (groups.getD li []).getLast? with
    | some student =>
      obtain ⟨ys, hys⟩ := List.getLast?_eq_some_iff.mp hgl
      have hsplit : (↑((groups.getD li []).dropLast) : Multiset String) +
          {student} = ↑(groups.getD li []) := by
        rw [hys, List.dropLast_concat, ← Multiset.coe_singleton,
          ← Multiset.coe_add]
      exact joinMS_doMove groups li si _ student hli hsi hsplit
    | none => rfl

theorem joinMS_balanceBody (groups : List (List String))
    (fg : List (String × List String)) :
    joinMS (balanceBody groups fg) = joinMS groups := by
  unfold balanceBody
  cases hmx : pyMax (groups.map (fun g => g.length)) with
  | none => rfl
  | some mx =>
    cases hmn : pyMin (groups.map (fun g => g.length)) with
    | none => rfl
    | some mn =>
      have hli : (groups.map (fun g => g.length)).indexOf mx <
          groups.length := by
        have := List.indexOf_lt_length.mpr (pyMax_mem hmx)
        simpa using this
      have hsi : (groups.map (fun g => g.length)).indexOf mn <
          groups.length := by
        have := List.indexOf_lt_length.mpr (pyMin_mem hmn)
        simpa using this
      exact joinMS_balanceMove groups fg _ _ hli hsi

theorem balanceLoop_succ_maxNone (fg : List (String × List String))
    (fuel : Nat) (groups : List (List String))
    (h : pyMax (groups.map (fun g => g.length)) = none) :
    balanceLoop fg (fuel + 1) groups = groups := by
  rw [balanceLoop, h]

theorem balanceLoop_succ_minNone (fg : List (String × List String))
    (fuel : Nat) (groups : List (List String)) (mx : Nat)
    (h1 : pyMax (groups.map (fun g => g.length)) = some mx)
    (h2 : pyMin (groups.map (fun g => g.length)) = none) :
    balanceLoop fg (fuel + 1) groups = groups := by
  rw [balanceLoop, h1, h2]

theorem balanceLoop_succ_some (fg : List (String × List String))
    (fuel : Nat) (groups : List (List String)) (mx mn : Nat)
    (h1 : pyMax (groups.map (fun g => g.length)) = some mx)
    (h2 : pyMin (groups.map (fun g => g.length)) = some mn) :
    balanceLoop fg (fuel + 1) groups =
      (if mx - mn ≤ 1 then groups
       else balanceLoop fg fuel (balanceBody groups fg)) := by
  rw [balanceLoop, h1, h2]

theorem sizeGap_some (groups : List (List String)) (mx mn : Nat)
    (h1 : pyMax (groups.map (fun g => g.length)) = some mx)
    (h2 : pyMin (groups.map (fun g => g.length)) = some mn) :
    sizeGap groups = mx - mn := by
  rw [sizeGap, h1, h2]

theorem sizeGap_maxNone (groups : List (List String))
    (h : pyMax (groups.map (fun g => g.length)) = none) :
    sizeGap groups = 0 := by
  rw [sizeGap, h]

theorem sizeGap_minNone (groups : List (List String)) (mx : Nat)
    (h1 : pyMax (groups.map (fun g => g.length)) = some mx)
    (h2 : pyMin (groups.map (fun g => g.length)) = none) :
    sizeGap groups = 0 := by
  rw [sizeGap, h1, h2]

theorem joinMS_balanceLoop (fg : List (String × List String)) :
    ∀ (fuel : Nat) (groups : List (List String)),
      joinMS (balanceLoop fg fuel groups) = joinMS groups := by
  intro fuel
  induction fuel with
  | zero =>
    intro groups
    rfl
  | succ fuel ih =>
    intro groups
    cases hmx : pyMax (groups.map (fun g => g.length)) with
    | none => rw [balanceLoop_succ_maxNone fg fuel groups hmx]
    | some mx =>
      cases hmn : pyMin (groups.map (fun g => g.length)) with
      | none => rw [balanceLoop_succ_minNone fg fuel groups mx hmx hmn]
      | some mn =>
        rw [balanceLoop_succ_some fg fuel groups mx mn hmx hmn]
        by_cases hgap : mx - mn ≤ 1
        · rw [if_pos hgap]
        · rw [if_neg hgap, ih (balanceBody groups fg),
            joinMS_balanceBody]

/-! ### The balancer dichotomy -/

theorem balanceLoop_dichotomy (fg : List (String × List String)) :
    ∀ (fuel : Nat) (groups : List (List String)),
      sizeGap (balanceLoop fg fuel groups) ≤ 1 ∨
      balanceLoop fg fuel groups =
        Nat.iterate (fun g => balanceBody g fg) fuel groups := by
  intro fuel
  induction fuel with
  | zero =>
    intro groups
    exact Or.inr rfl
  | succ fuel ih =>
    intro groups
    cases hmx : pyMax (groups.map (fun g => g.length)) with
    | none =>
      left
      rw [balanceLoop_succ_maxNone fg fuel groups hmx,
        sizeGap_maxNone groups hmx]
      decide
    | some mx =>
      cases hmn : pyMin (groups.map (fun g => g.length)) with
      | none =>
        left
        rw [balanceLoop_succ_minNone fg fuel groups mx hmx hmn,
          sizeGap_minNone groups mx hmx hmn]
        decide
      | some mn =>
        rw [balanceLoop_succ_some fg fuel groups mx mn hmx hmn]
        by_cases hgap : mx - mn ≤ 1
        · rw [if_pos hgap]
          left
          rw [sizeGap_some groups mx mn hmx hmn]
          exact hgap
        · rw [if_neg hgap]
          rcases ih (balanceBody groups fg) with h | h
          · exact Or.inl h
          · right
            rw [Function.iterate_succ_apply]
            exact h

/-- C2: `balance_groups` runs for at most 50 iterations (the fuel of
`balanceLoop`); either it converges, and the returned partition satisfies
`max(sizes) - min(sizes) <= 1`, or the cap is exhausted and the partition
reached after exactly 50 move steps is returned as-is.  A partition has at
least one group (`num_groups >= 1` per the allocator contract); the Python
`max()` call would raise on an empty group list. -/
theorem claim_C2 (groups : List (List String))
    (fg : List (String × List String)) (target_size : Nat)
    (hne : groups ≠ []) :
    sizeGap (balance_groups groups fg target_size) ≤ 1 ∨
    balance_groups groups fg target_size =
      Nat.iterate (fun g => balanceBody g fg) 50 groups :=
  balanceLoop_dichotomy fg 50 groups

/-- Witness for C2 at a concrete unbalanced partition. -/
theorem claim_C2_witness :
    sizeGap (balance_groups [["a", "b", "c"], []] [] 0) ≤ 1 ∨
    balance_groups [["a", "b", "c"], []] [] 0 =
      Nat.iterate (fun g => balanceBody g []) 50 [["a", "b", "c"], []] :=
  claim_C2 [["a", "b", "c"], []] [] 0 (by simp)

/-- C3: with unique student names and at least one group, every student is
placed during the first pass of `allocate_groups`, so the second-pass
fallback never fires: it returns its input state unchanged. -/
theorem claim_C3 (students : List String)
    (fg : List (String × List String)) (num_groups : Nat)
    (h1 : students.Nodup) (h2 : 1 ≤ num_groups) :
    (∀ s ∈ students, s ∈ (firstPass fg (maxSize students.length num_groups)
      (studentPriority students fg) (List.replicate num_groups [])).2) ∧
    secondPass students (firstPass fg (maxSize students.length num_groups)
      (studentPriority students fg) (List.replicate num_groups [])) =
      firstPass fg (maxSize students.length num_groups)
        (studentPriority students fg) (List.replicate num_groups []) := by
  obtain ⟨c1, c2, c3, c4⟩ := firstPass_complete fg students num_groups h1 h2
  exact ⟨c3, secondPass_id students _ c3⟩

/-- Witness for C3 on a concrete three-student roster. -/
theorem claim_C3_witness :
    (∀ s ∈ ["ann", "ben", "cal"],
      s ∈ (firstPass [] (maxSize ["ann", "ben", "cal"].length 2)
        (studentPriority ["ann", "ben", "cal"] [])
        (List.replicate 2 [])).2) ∧
    secondPass ["ann", "ben", "cal"]
      (firstPass [] (maxSize ["ann", "ben", "cal"].length 2)
        (studentPriority ["ann", "ben", "cal"] [])
        (List.replicate 2 [])) =
      firstPass [] (maxSize ["ann", "ben", "cal"].length 2)
        (studentPriority ["ann", "ben", "cal"] [])
        (List.replicate 2 []) :=
  claim_C3 ["ann", "ben", "cal"] [] 2 (by decide) (by decide)

/-- C1: with unique student names and at least one group, the partition
returned by `allocate_groups` (after its internal `balance_groups` call) is
a permutation of the roster with no duplicates: pairwise disjoint groups
whose union is exactly the roster. -/
theorem claim_C1 (students : List String)
    (fg : List (String × List String)) (num_groups : Nat)
    (h1 : students.Nodup) (h2 : 1 ≤ num_groups) :
    (allocate_groups students fg num_groups).flatten.Perm students ∧
    (allocate_groups students fg num_groups).flatten.Nodup ∧
    List.Pairwise List.Disjoint (allocate_groups students fg num_groups)
    := by
  obtain ⟨c1, c2, c3, c4⟩ := firstPass_complete fg students num_groups h1 h2
  have hsp := secondPass_id students _ c3
  have halloc : allocate_groups students fg num_groups =
      balance_groups (firstPass fg (maxSize students.length num_groups)
        (studentPriority students fg)
        (List.replicate num_groups [])).1 fg
        (targetSize students.length num_groups) := by
    unfold allocate_groups
    rw [hsp]
  have hjoin : joinMS (allocate_groups students fg num_groups) =
      (↑students : Multiset String) := by
    rw [halloc]
    show joinMS (balanceLoop fg 50 _) = _
    rw [joinMS_balanceLoop fg 50 _, c2]
    exact Multiset.coe_eq_coe.mpr c4
  have hperm : (allocate_groups students fg num_groups).flatten.Perm
      students := by
    rw [← Multiset.coe_eq_coe, ← joinMS_eq_flatten]
    exact hjoin
  have hnodup : (allocate_groups students fg num_groups).flatten.Nodup :=
    hperm.nodup_iff.mpr h1
  exact ⟨hperm, hnodup, (List.nodup_flatten.mp hnodup).2⟩

/-- Witness for C1 on a concrete three-student roster split into two
groups. -/
theorem claim_C1_witness :
    (allocate_groups ["ann", "ben", "cal"] [] 2).flatten.Perm
      ["ann", "ben", "cal"] ∧
    (allocate_groups ["ann", "ben", "cal"] [] 2).flatten.Nodup ∧
    List.Pairwise List.Disjoint (allocate_groups ["ann", "ben", "cal"] [] 2)
    :=
  claim_C1 ["ann", "ben", "cal"] [] 2 (by decide) (by decide)

end ClassAllocation
